import Mathlib

/-!
Verification of the riff-wave-reader RIFF/WAVE chunk decoder.

The decoder is embedded shallowly: the seekable byte source is a
`List Nat` of bytes together with an explicit cursor position, and every
reading routine of `src/lib.rs` becomes a function
`List Nat → Nat → Except Error (α × Nat)` returning the decoded value and
the new cursor position.  Machine integers are plain naturals; the one
place the original performs wrapping 32-bit arithmetic (the fact-chunk
remaining-size computation) is modelled with an explicit `% 2^32`.
-/

set_option maxRecDepth 8192

namespace RiffWave

/-- Error enum of `src/error.rs`.  `IOError` stands for any propagated
I/O failure (in this model: a read past the end of the source). -/
inductive Error
  | NotRiff
  | NotWave
  | InvalidFmtChunk
  | InvalidExtendedInfo
  | IOError
  deriving DecidableEq, Repr

/-- Four-character codes, as in `lib.rs`.  The `Other` variant keeps the
raw four bytes (the original stores them as a `String` built unchecked
from the same bytes). -/
inductive FourCC
  | Riff
  | Fmt
  | Data
  | Wave
  | Fact
  | Other (bytes : List Nat)
  deriving DecidableEq, Repr

/-- The ASCII bytes of `RIFF`. -/
def riffTag : List Nat := [82, 73, 70, 70]

/-- The ASCII bytes of `WAVE`. -/
def waveTag : List Nat := [87, 65, 86, 69]

/-- The ASCII bytes of `fmt ` (with trailing space). -/
def fmtTag : List Nat := [102, 109, 116, 32]

/-- The ASCII bytes of `data`. -/
def dataTag : List Nat := [100, 97, 116, 97]

/-- The ASCII bytes of `Data` (capitalised spelling, also accepted). -/
def dataCapTag : List Nat := [68, 97, 116, 97]

/-- The ASCII bytes of `fact`. -/
def factTag : List Nat := [102, 97, 99, 116]

/-- `impl From<&[u8]> for FourCC`, with the match arms in source order. -/
def FourCC.ofBytes (bs : List Nat) : FourCC :=
  if bs = riffTag then .Riff
  else if bs = waveTag then .Wave
  else if bs = fmtTag then .Fmt
  else if bs = dataTag then .Data
  else if bs = dataCapTag then .Data
  else if bs = factTag then .Fact
  else .Other bs

/-- Audio format codes, as in `lib.rs`. -/
inductive Format
  | UncompressedPCM
  | IeeeFloatingPoint
  | G711ALaw
  | G711ULaw
  | ExtendedWave
  | Other (code : Nat)
  deriving DecidableEq, Repr

/-- `impl From<u16> for Format`. -/
def Format.ofCode (n : Nat) : Format :=
  if n = 1 then .UncompressedPCM
  else if n = 3 then .IeeeFloatingPoint
  else if n = 6 then .G711ALaw
  else if n = 7 then .G711ULaw
  else if n = 65534 then .ExtendedWave
  else .Other n

structure RiffChunk where
  id : FourCC
  file_size : Nat
  file_type : FourCC
  deriving DecidableEq, Repr

structure ExtendedInfo where
  sample_info : Nat
  channel_mask : Nat
  sub_format : Nat
  remaining_data : List Nat
  deriving DecidableEq, Repr

structure FmtChunk where
  id : FourCC
  data_size : Nat
  format : Format
  num_channels : Nat
  sample_rate : Nat
  byte_rate : Nat
  block_align : Nat
  bits_per_sample : Nat
  extra_info_size : Nat
  extended_info : Option ExtendedInfo
  deriving DecidableEq, Repr

structure FactChunk where
  id : FourCC
  data_size : Nat
  sample_length : Nat
  remaining_data : List Nat
  deriving DecidableEq, Repr

structure OtherChunk where
  id : FourCC
  data_size : Nat
  data : List Nat
  deriving DecidableEq, Repr

structure DataChunk where
  id : FourCC
  data_size : Nat
  pad_byte : Nat
  deriving DecidableEq, Repr

/-- The decoded document: the chunk fields of the `RiffWaveReader` struct
(the reader itself is the `(stream, cursor)` pair passed alongside). -/
structure RiffWaveReader where
  riff_chunk : RiffChunk
  fmt_chunk : FmtChunk
  fact_chunk : Option FactChunk
  data_chunk : DataChunk
  other_chunks : List OtherChunk
  deriving DecidableEq, Repr

/-- `std::io::Read::read_exact` over the list model: consume exactly `n`
bytes from `pos` or fail with an I/O error. -/
def readExact (n : Nat) (s : List Nat) (pos : Nat) : Except Error (List Nat × Nat) :=
  if pos + n ≤ s.length then .ok ((s.drop pos).take n, pos + n) else .error .IOError

/-- Little-endian value of a byte list (first byte least significant). -/
def leVal (bs : List Nat) : Nat := bs.foldr (fun b acc => b + 256 * acc) 0

/-- `read_fourcc`: four raw bytes through the `FourCC` classifier. -/
def read_fourcc (s : List Nat) (pos : Nat) : Except Error (FourCC × Nat) :=
  match readExact 4 s pos with
  | .error e => .error e
  | .ok (bs, p) => .ok (FourCC.ofBytes bs, p)

/-- `read_u16`: two bytes, little endian. -/
def read_u16 (s : List Nat) (pos : Nat) : Except Error (Nat × Nat) :=
  match readExact 2 s pos with
  | .error e => .error e
  | .ok (bs, p) => .ok (leVal bs, p)

/-- `read_u32`: four bytes, little endian. -/
def read_u32 (s : List Nat) (pos : Nat) : Except Error (Nat × Nat) :=
  match readExact 4 s pos with
  | .error e => .error e
  | .ok (bs, p) => .ok (leVal bs, p)

/-- `read_u128`: sixteen bytes, little endian. -/
def read_u128 (s : List Nat) (pos : Nat) : Except Error (Nat × Nat) :=
  match readExact 16 s pos with
  | .error e => .error e
  | .ok (bs, p) => .ok (leVal bs, p)

/-- `read_is_fourcc`: read a tag, seek back 4 bytes, report whether the
tag is a recognized (non-`Other`) variant. -/
def read_is_fourcc (s : List Nat) (pos : Nat) : Except Error (Bool × Nat) :=
  match read_fourcc s pos with
  | .error e => .error e
  | .ok (c, p) =>
    .ok ((match c with | .Other _ => false | _ => true), p - 4)

/-- `read_riff_chunk`: tag, 32-bit file size, container-type tag. -/
def read_riff_chunk (s : List Nat) (pos : Nat) : Except Error (RiffChunk × Nat) :=
  match read_fourcc s pos with
  | .error e => .error e
  | .ok (id, p1) =>
    match read_u32 s p1 with
    | .error e => .error e
    | .ok (file_size, p2) =>
      match read_fourcc s p2 with
      | .error e => .error e
      | .ok (file_type, p3) => .ok (⟨id, file_size, file_type⟩, p3)

/-- `read_extended_info`: size 0 is absent, size below 22 is invalid,
otherwise the three fixed fields then `size - 22` verbatim bytes. -/
def read_extended_info (size : Nat) (s : List Nat) (pos : Nat) :
    Except Error (Option ExtendedInfo × Nat) :=
  if size = 0 then .ok (none, pos)
  else if size < 22 then .error .InvalidExtendedInfo
  else
    match read_u16 s pos with
    | .error e => .error e
    | .ok (sample_info, p1) =>
      match read_u32 s p1 with
      | .error e => .error e
      | .ok (channel_mask, p2) =>
        match read_u128 s p2 with
        | .error e => .error e
        | .ok (sub_format, p3) =>
          match readExact (size - 22) s p3 with
          | .error e => .error e
          | .ok (remaining_data, p4) =>
            .ok (some ⟨sample_info, channel_mask, sub_format, remaining_data⟩, p4)

/-- `read_fmt_chunk`: tag check, fixed 16-byte body, then the
peek-driven decision on extended info. -/
def read_fmt_chunk (s : List Nat) (pos : Nat) : Except Error (FmtChunk × Nat) :=
  match read_fourcc s pos with
  | .error e => .error e
  | .ok (id, p1) =>
    if id ≠ FourCC.Fmt then .error .InvalidFmtChunk
    else
      match read_u32 s p1 with
      | .error e => .error e
      | .ok (data_size, p2) =>
        match read_u16 s p2 with
        | .error e => .error e
        | .ok (fcode, p3) =>
          match read_u16 s p3 with
          | .error e => .error e
          | .ok (num_channels, p4) =>
            match read_u32 s p4 with
            | .error e => .error e
            | .ok (sample_rate, p5) =>
              match read_u32 s p5 with
              | .error e => .error e
              | .ok (byte_rate, p6) =>
                match read_u16 s p6 with
                | .error e => .error e
                | .ok (block_align, p7) =>
                  match read_u16 s p7 with
                  | .error e => .error e
                  | .ok (bits_per_sample, p8) =>
                    match read_is_fourcc s p8 with
                    | .error e => .error e
                    | .ok (b, p9) =>
                      if b then
                        .ok (⟨id, data_size, Format.ofCode fcode, num_channels,
                          sample_rate, byte_rate, block_align, bits_per_sample,
                          0, none⟩, p9)
                      else
                        match read_u16 s p9 with
                        | .error e => .error e
                        | .ok (extra_info_size, p10) =>
                          match read_extended_info extra_info_size s p10 with
                          | .error e => .error e
                          | .ok (extended_info, p11) =>
                            .ok (⟨id, data_size, Format.ofCode fcode, num_channels,
                              sample_rate, byte_rate, block_align, bits_per_sample,
                              extra_info_size, extended_info⟩, p11)

/-- Wrapping subtraction on 32-bit unsigned values (`a.wrapping_sub b`,
the release-mode meaning of `a - b` on `u32`), for `a b < 2^32`.  The
literal is written first so that reduction on a symbolic `a` stays
shallow. -/
def u32_wrapping_sub (a b : Nat) : Nat := (4294967296 + a - b) % 4294967296

/-- `read_fact_chunk`: peek the tag; on a non-`fact` tag seek back and
report absence.  The remaining-size computation `data_size - 4` is the
original u32 subtraction, which wraps when `data_size < 4`. -/
def read_fact_chunk (s : List Nat) (pos : Nat) : Except Error (Option FactChunk × Nat) :=
  match read_fourcc s pos with
  | .error e => .error e
  | .ok (id, p1) =>
    if id ≠ FourCC.Fact then .ok (none, p1 - 4)
    else
      match read_u32 s p1 with
      | .error e => .error e
      | .ok (data_size, p2) =>
        match read_u32 s p2 with
        | .error e => .error e
        | .ok (sample_length, p3) =>
          match readExact (u32_wrapping_sub data_size 4) s p3 with
          | .error e => .error e
          | .ok (remaining_data, p4) =>
            .ok (some ⟨id, data_size, sample_length, remaining_data⟩, p4)

/-- One step of the `read_other_chunks` loop, with explicit fuel.  Each
iteration either peeks `data` and rewinds, or consumes a whole chunk of
at least 8 bytes, so `s.length + 1 - pos` fuel is always sufficient. -/
def read_other_chunks_fuel : Nat → List Nat → Nat → Except Error (List OtherChunk × Nat)
  | 0, _, _ => .error .IOError
  | fuel + 1, s, pos =>
    match read_fourcc s pos with
    | .error e => .error e
    | .ok (fourcc, p1) =>
      if fourcc = FourCC.Data then .ok ([], p1 - 4)
      else
        match read_u32 s p1 with
        | .error e => .error e
        | .ok (data_size, p2) =>
          match readExact data_size s p2 with
          | .error e => .error e
          | .ok (data, p3) =>
            match read_other_chunks_fuel fuel s p3 with
            | .error e => .error e
            | .ok (chunks, p4) => .ok (⟨fourcc, data_size, data⟩ :: chunks, p4)

/-- `read_other_chunks`: loop until a `data` tag is peeked. -/
def read_other_chunks (s : List Nat) (pos : Nat) : Except Error (List OtherChunk × Nat) :=
  read_other_chunks_fuel (s.length + 1 - pos) s pos

/-- `read_data_chunk`: tag and declared size only; the pad byte records
the parity of the declared size. -/
def read_data_chunk (s : List Nat) (pos : Nat) : Except Error (DataChunk × Nat) :=
  match read_fourcc s pos with
  | .error e => .error e
  | .ok (id, p1) =>
    match read_u32 s p1 with
    | .error e => .error e
    | .ok (data_size, p2) =>
      .ok (⟨id, data_size, if data_size % 2 = 0 then 0 else 1⟩, p2)

/-- `RiffWaveReader::new`: the document assembler, in protocol order. -/
def RiffWaveReader.new (s : List Nat) : Except Error (RiffWaveReader × Nat) :=
  match read_riff_chunk s 0 with
  | .error e => .error e
  | .ok (riff_chunk, p1) =>
    if riff_chunk.id ≠ FourCC.Riff then .error .NotRiff
    else if riff_chunk.file_type ≠ FourCC.Wave then .error .NotWave
    else
      match read_fmt_chunk s p1 with
      | .error e => .error e
      | .ok (fmt_chunk, p2) =>
        match read_fact_chunk s p2 with
        | .error e => .error e
        | .ok (fact_chunk, p3) =>
          match read_other_chunks s p3 with
          | .error e => .error e
          | .ok (other_chunks, p4) =>
            match read_data_chunk s p4 with
            | .error e => .error e
            | .ok (data_chunk, p5) =>
              .ok (⟨riff_chunk, fmt_chunk, fact_chunk, data_chunk, other_chunks⟩, p5)

/-- `RiffWaveReader::data`: `read_to_end` from the current cursor — every
remaining byte of the source, with no reference to the declared size. -/
def RiffWaveReader.data (s : List Nat) (pos : Nat) : Except Error (List Nat) :=
  .ok (s.drop pos)

/-! ## The documented binary layout, as a serializer

The spec's round-trip property re-serializes the decoded headers using
the documented little-endian layout.  `serBytes n v` is the `n`-byte
little-endian encoding of `v`. -/

/-- Little-endian byte encoding of fixed width. -/
def serBytes : Nat → Nat → List Nat
  | 0, _ => []
  | n + 1, v => v % 256 :: serBytes n (v / 256)

def ser16 (v : Nat) : List Nat := serBytes 2 v

def ser32 (v : Nat) : List Nat := serBytes 4 v

def ser128 (v : Nat) : List Nat := serBytes 16 v

/-- Canonical byte spelling of a tag (the `Data`/`data` pair serializes
to the lowercase spelling). -/
def FourCC.toBytes : FourCC → List Nat
  | .Riff => riffTag
  | .Wave => waveTag
  | .Fmt => fmtTag
  | .Data => dataTag
  | .Fact => factTag
  | .Other bs => bs

/-- Numeric code of a format variant. -/
def Format.toCode : Format → Nat
  | .UncompressedPCM => 1
  | .IeeeFloatingPoint => 3
  | .G711ALaw => 6
  | .G711ULaw => 7
  | .ExtendedWave => 65534
  | .Other n => n

def serRiffChunk (c : RiffChunk) : List Nat :=
  c.id.toBytes ++ ser32 c.file_size ++ c.file_type.toBytes

def serExtendedInfo (e : ExtendedInfo) : List Nat :=
  ser16 e.sample_info ++ ser32 e.channel_mask ++ ser128 e.sub_format ++ e.remaining_data

def serFmtChunk (c : FmtChunk) : List Nat :=
  c.id.toBytes ++ ser32 c.data_size ++ ser16 c.format.toCode ++ ser16 c.num_channels ++
    ser32 c.sample_rate ++ ser32 c.byte_rate ++ ser16 c.block_align ++
    ser16 c.bits_per_sample ++
    (match c.extended_info with
     | none => []
     | some e => ser16 c.extra_info_size ++ serExtendedInfo e)

def serFactChunk : Option FactChunk → List Nat
  | none => []
  | some c => c.id.toBytes ++ ser32 c.data_size ++ ser32 c.sample_length ++ c.remaining_data

def serOtherChunk (c : OtherChunk) : List Nat :=
  c.id.toBytes ++ ser32 c.data_size ++ c.data

def serOtherChunks (cs : List OtherChunk) : List Nat :=
  cs.foldr (fun c acc => serOtherChunk c ++ acc) []

def serDataChunk (c : DataChunk) : List Nat :=
  c.id.toBytes ++ ser32 c.data_size

/-- Serialization of all decoded headers, in stream order (payload bytes
of the data chunk excluded). -/
def serHeaders (d : RiffWaveReader) : List Nat :=
  serRiffChunk d.riff_chunk ++ serFmtChunk d.fmt_chunk ++ serFactChunk d.fact_chunk ++
    serOtherChunks d.other_chunks ++ serDataChunk d.data_chunk

/-- The contiguous bytes of `s` from position `a` (inclusive) to `b`
(exclusive). -/
def seg (s : List Nat) (a b : Nat) : List Nat := (s.drop a).take (b - a)

/-- Every byte of the stream fits in an octet. -/
def validBytes (s : List Nat) : Prop := ∀ b ∈ s, b < 256

instance (s : List Nat) : Decidable (validBytes s) := by
  unfold validBytes; infer_instance

/-- Overwrite the bytes of `s` at positions `p ..= p + bs.length - 1`
with `bs` (used to state that a field of the stream is never read). -/
def setBytes (s : List Nat) (p : Nat) (bs : List Nat) : List Nat :=
  s.take p ++ bs ++ s.drop (p + bs.length)

/-! ## Concrete test streams and their decoded documents -/

/-- A minimal valid WAVE stream: RIFF header, plain fmt chunk, `data`
header of declared size 4, four payload bytes. -/
def streamA : List Nat :=
  riffTag ++ [36, 0, 0, 0] ++ waveTag ++
    fmtTag ++ [16, 0, 0, 0] ++ [1, 0] ++ [1, 0] ++ [64, 31, 0, 0] ++ [64, 31, 0, 0] ++
    [1, 0] ++ [8, 0] ++
    dataTag ++ [4, 0, 0, 0] ++ [1, 2, 3, 4]

/-- The document decoded from `streamA` (and from `streamB`). -/
def docA : RiffWaveReader :=
  ⟨⟨.Riff, 36, .Wave⟩,
   ⟨.Fmt, 16, .UncompressedPCM, 1, 8000, 8000, 1, 8, 0, none⟩,
   none, ⟨.Data, 4, 0⟩, []⟩

/-- `streamA` with the data tag spelled `Data` instead of `data`. -/
def streamB : List Nat :=
  riffTag ++ [36, 0, 0, 0] ++ waveTag ++
    fmtTag ++ [16, 0, 0, 0] ++ [1, 0] ++ [1, 0] ++ [64, 31, 0, 0] ++ [64, 31, 0, 0] ++
    [1, 0] ++ [8, 0] ++
    dataCapTag ++ [4, 0, 0, 0] ++ [1, 2, 3, 4]

/-- A stream whose fact chunk declares data size 3 (below the 4 bytes
already consumed by the sample-length field). -/
def streamF3 : List Nat :=
  riffTag ++ [36, 0, 0, 0] ++ waveTag ++
    fmtTag ++ [16, 0, 0, 0] ++ [1, 0] ++ [1, 0] ++ [64, 31, 0, 0] ++ [64, 31, 0, 0] ++
    [1, 0] ++ [8, 0] ++
    factTag ++ [3, 0, 0, 0] ++ [0, 0, 0, 0] ++
    dataTag ++ [0, 0, 0, 0]

/-- A stream with a fact chunk and one unknown chunk tagged `LIST` of
declared size 8 between `fmt` and `data`. -/
def streamC : List Nat :=
  riffTag ++ [68, 0, 0, 0] ++ waveTag ++
    fmtTag ++ [16, 0, 0, 0] ++ [1, 0] ++ [1, 0] ++ [64, 31, 0, 0] ++ [64, 31, 0, 0] ++
    [1, 0] ++ [8, 0] ++
    factTag ++ [4, 0, 0, 0] ++ [0, 0, 0, 0] ++
    [76, 73, 83, 84] ++ [8, 0, 0, 0] ++ [1, 2, 3, 4, 5, 6, 7, 8] ++
    dataTag ++ [0, 0, 0, 0]

/-- The document decoded from `streamC`. -/
def docC : RiffWaveReader :=
  ⟨⟨.Riff, 68, .Wave⟩,
   ⟨.Fmt, 16, .UncompressedPCM, 1, 8000, 8000, 1, 8, 0, none⟩,
   some ⟨.Fact, 4, 0, []⟩, ⟨.Data, 0, 0⟩,
   [⟨.Other [76, 73, 83, 84], 8, [1, 2, 3, 4, 5, 6, 7, 8]⟩]⟩

/-- `streamA` with six payload bytes although the data chunk declares
size 4. -/
def streamD : List Nat :=
  riffTag ++ [36, 0, 0, 0] ++ waveTag ++
    fmtTag ++ [16, 0, 0, 0] ++ [1, 0] ++ [1, 0] ++ [64, 31, 0, 0] ++ [64, 31, 0, 0] ++
    [1, 0] ++ [8, 0] ++
    dataTag ++ [4, 0, 0, 0] ++ [1, 2, 3, 4, 5, 6]

/-! ## Basic lemmas -/

lemma readExact_ok {n pos p : Nat} {s bs : List Nat}
    (h : readExact n s pos = .ok (bs, p)) :
    bs = seg s pos (pos + n) ∧ p = pos + n ∧ pos + n ≤ s.length := by
  unfold readExact at h
  split at h
  · simp only [Except.ok.injEq, Prod.mk.injEq] at h
    refine ⟨?_, h.2.symm, by assumption⟩
    rw [← h.1]; simp [seg]
  · exact Except.noConfusion h

lemma seg_self (s : List Nat) (a : Nat) : seg s a a = [] := by simp [seg]

lemma length_seg {s : List Nat} {a n : Nat} (h : a + n ≤ s.length) :
    (seg s a (a + n)).length = n := by
  simp [seg]; omega

lemma seg_append {s : List Nat} {a b c : Nat} (h1 : a ≤ b) (h2 : b ≤ c) :
    seg s a b ++ seg s b c = seg s a c := by
  unfold seg
  have hc : c - a = (b - a) + (c - b) := by omega
  rw [hc, List.take_add, List.drop_drop]
  have hb : a + (b - a) = b := by omega
  rw [hb]

lemma validBytes_seg {s : List Nat} (hv : validBytes s) (a b : Nat) :
    ∀ x ∈ seg s a b, x < 256 := by
  intro x hx
  exact hv x (List.mem_of_mem_drop (List.mem_of_mem_take hx))

lemma leVal_cons (b : Nat) (t : List Nat) : leVal (b :: t) = b + 256 * leVal t := rfl

lemma serBytes_leVal : ∀ bs : List Nat, (∀ b ∈ bs, b < 256) →
    serBytes bs.length (leVal bs) = bs
  | [], _ => rfl
  | b :: t, h => by
    have hb : b < 256 := h b (List.mem_cons_self _ _)
    have ht : ∀ x ∈ t, x < 256 := fun x hx => h x (List.mem_cons_of_mem _ hx)
    simp only [List.length_cons, serBytes, leVal_cons]
    have h1 : (b + 256 * leVal t) % 256 = b := by omega
    have h2 : (b + 256 * leVal t) / 256 = leVal t := by omega
    rw [h1, h2, serBytes_leVal t ht]

lemma leVal_serBytes : ∀ n v : Nat, v < 256 ^ n → leVal (serBytes n v) = v
  | 0, v, h => by
    simp only [pow_zero, Nat.lt_one_iff] at h
    simp [serBytes, leVal, h]
  | n + 1, v, h => by
    have hd : v / 256 < 256 ^ n := by
      refine Nat.div_lt_of_lt_mul ?_
      rw [pow_succ] at h
      omega
    simp only [serBytes, leVal_cons, leVal_serBytes n (v / 256) hd]
    omega

lemma toBytes_ofBytes {bs : List Nat} (h : bs ≠ dataCapTag) :
    (FourCC.ofBytes bs).toBytes = bs := by
  unfold FourCC.ofBytes
  split_ifs <;> simp_all [FourCC.toBytes]

lemma ofBytes_eq_riff {bs : List Nat} (h : FourCC.ofBytes bs = .Riff) : bs = riffTag := by
  unfold FourCC.ofBytes at h
  split_ifs at h <;> simp_all

lemma ofBytes_eq_wave {bs : List Nat} (h : FourCC.ofBytes bs = .Wave) : bs = waveTag := by
  unfold FourCC.ofBytes at h
  split_ifs at h <;> simp_all

lemma ofBytes_eq_fmt {bs : List Nat} (h : FourCC.ofBytes bs = .Fmt) : bs = fmtTag := by
  unfold FourCC.ofBytes at h
  split_ifs at h <;> simp_all

lemma ofBytes_eq_fact {bs : List Nat} (h : FourCC.ofBytes bs = .Fact) : bs = factTag := by
  unfold FourCC.ofBytes at h
  split_ifs at h <;> simp_all

lemma ofBytes_ne_dataCap {bs : List Nat} (h : FourCC.ofBytes bs ≠ .Data) :
    bs ≠ dataCapTag := by
  intro heq
  subst heq
  exact h (by decide)

lemma format_code_roundtrip (n : Nat) : (Format.ofCode n).toCode = n := by
  unfold Format.ofCode
  split_ifs <;> simp_all [Format.toCode]

lemma read_fourcc_ok {pos p : Nat} {s : List Nat} {c : FourCC}
    (h : read_fourcc s pos = .ok (c, p)) :
    c = FourCC.ofBytes (seg s pos (pos + 4)) ∧ p = pos + 4 ∧ pos + 4 ≤ s.length := by
  unfold read_fourcc at h
  cases hre : readExact 4 s pos with
  | error e => rw [hre] at h; exact Except.noConfusion h
  | ok bp =>
    rw [hre] at h
    obtain ⟨h1, h2, h3⟩ := readExact_ok hre
    simp only [Except.ok.injEq, Prod.mk.injEq] at h
    exact ⟨by rw [← h.1, h1], by omega, h3⟩

lemma read_u16_ok {pos p v : Nat} {s : List Nat}
    (h : read_u16 s pos = .ok (v, p)) :
    v = leVal (seg s pos (pos + 2)) ∧ p = pos + 2 ∧ pos + 2 ≤ s.length := by
  unfold read_u16 at h
  cases hre : readExact 2 s pos with
  | error e => rw [hre] at h; exact Except.noConfusion h
  | ok bp =>
    rw [hre] at h
    obtain ⟨h1, h2, h3⟩ := readExact_ok hre
    simp only [Except.ok.injEq, Prod.mk.injEq] at h
    exact ⟨by rw [← h.1, h1], by omega, h3⟩

lemma read_u32_ok {pos p v : Nat} {s : List Nat}
    (h : read_u32 s pos = .ok (v, p)) :
    v = leVal (seg s pos (pos + 4)) ∧ p = pos + 4 ∧ pos + 4 ≤ s.length := by
  unfold read_u32 at h
  cases hre : readExact 4 s pos with
  | error e => rw [hre] at h; exact Except.noConfusion h
  | ok bp =>
    rw [hre] at h
    obtain ⟨h1, h2, h3⟩ := readExact_ok hre
    simp only [Except.ok.injEq, Prod.mk.injEq] at h
    exact ⟨by rw [← h.1, h1], by omega, h3⟩

lemma read_u128_ok {pos p v : Nat} {s : List Nat}
    (h : read_u128 s pos = .ok (v, p)) :
    v = leVal (seg s pos (pos + 16)) ∧ p = pos + 16 ∧ pos + 16 ≤ s.length := by
  unfold read_u128 at h
  cases hre : readExact 16 s pos with
  | error e => rw [hre] at h; exact Except.noConfusion h
  | ok bp =>
    rw [hre] at h
    obtain ⟨h1, h2, h3⟩ := readExact_ok hre
    simp only [Except.ok.injEq, Prod.mk.injEq] at h
    exact ⟨by rw [← h.1, h1], by omega, h3⟩

lemma read_is_fourcc_ok {pos p : Nat} {s : List Nat} {b : Bool}
    (h : read_is_fourcc s pos = .ok (b, p)) :
    p = pos ∧ pos + 4 ≤ s.length ∧
      b = (match FourCC.ofBytes (seg s pos (pos + 4)) with
           | .Other _ => false | _ => true) := by
  unfold read_is_fourcc at h
  cases hre : read_fourcc s pos with
  | error e => rw [hre] at h; exact Except.noConfusion h
  | ok cp =>
    rw [hre] at h
    obtain ⟨h1, h2, h3⟩ := read_fourcc_ok hre
    simp only [Except.ok.injEq, Prod.mk.injEq] at h
    refine ⟨by omega, h3, ?_⟩
    rw [← h.1, h1]

/-- Little-endian serialization of a read 16-bit segment reproduces it. -/
lemma ser16_seg {s : List Nat} {pos : Nat} (hv : validBytes s)
    (h : pos + 2 ≤ s.length) : ser16 (leVal (seg s pos (pos + 2))) = seg s pos (pos + 2) := by
  have hl := length_seg (s := s) (a := pos) (n := 2) h
  have := serBytes_leVal (seg s pos (pos + 2)) (validBytes_seg hv pos (pos + 2))
  rw [hl] at this
  exact this

lemma ser32_seg {s : List Nat} {pos : Nat} (hv : validBytes s)
    (h : pos + 4 ≤ s.length) : ser32 (leVal (seg s pos (pos + 4))) = seg s pos (pos + 4) := by
  have hl := length_seg (s := s) (a := pos) (n := 4) h
  have := serBytes_leVal (seg s pos (pos + 4)) (validBytes_seg hv pos (pos + 4))
  rw [hl] at this
  exact this

lemma ser128_seg {s : List Nat} {pos : Nat} (hv : validBytes s)
    (h : pos + 16 ≤ s.length) :
    ser128 (leVal (seg s pos (pos + 16))) = seg s pos (pos + 16) := by
  have hl := length_seg (s := s) (a := pos) (n := 16) h
  have := serBytes_leVal (seg s pos (pos + 16)) (validBytes_seg hv pos (pos + 16))
  rw [hl] at this
  exact this

/-! ## Inversion and header round-trip lemmas for each chunk decoder -/

lemma read_riff_chunk_ok {pos p : Nat} {s : List Nat} {rc : RiffChunk}
    (h : read_riff_chunk s pos = .ok (rc, p)) :
    rc = ⟨FourCC.ofBytes (seg s pos (pos + 4)), leVal (seg s (pos + 4) (pos + 8)),
          FourCC.ofBytes (seg s (pos + 8) (pos + 12))⟩ ∧
    p = pos + 12 ∧ pos + 12 ≤ s.length := by
  unfold read_riff_chunk at h
  split at h
  · exact Except.noConfusion h
  rename_i id p1 heq1
  split at h
  · exact Except.noConfusion h
  rename_i fs p2 heq2
  split at h
  · exact Except.noConfusion h
  rename_i ft p3 heq3
  obtain ⟨hid, hq1, hl1⟩ := read_fourcc_ok heq1
  subst hq1
  obtain ⟨hfs, hq2, hl2⟩ := read_u32_ok heq2
  subst hq2
  obtain ⟨hft, hq3, hl3⟩ := read_fourcc_ok heq3
  subst hq3
  simp only [Except.ok.injEq, Prod.mk.injEq] at h
  obtain ⟨hrc, hp⟩ := h
  have e8 : pos + 4 + 4 = pos + 8 := by omega
  have e12 : pos + 4 + 4 + 4 = pos + 12 := by omega
  rw [e8] at hfs
  rw [e8, e12] at hft
  rw [e12] at hl3 hp
  subst hrc
  exact ⟨by rw [hid, hfs, hft], by omega, hl3⟩

/-- On success with the mandated tags, the RIFF header re-serializes to
exactly the twelve bytes it was decoded from. -/
lemma serRiff_of_ok {pos p : Nat} {s : List Nat} {rc : RiffChunk}
    (h : read_riff_chunk s pos = .ok (rc, p)) (hv : validBytes s)
    (hid : rc.id = .Riff) (hft : rc.file_type = .Wave) :
    p = pos + 12 ∧ pos + 12 ≤ s.length ∧ serRiffChunk rc = seg s pos p := by
  obtain ⟨hrc, hp, hl⟩ := read_riff_chunk_ok h
  subst hp
  refine ⟨rfl, hl, ?_⟩
  have h1 : seg s pos (pos + 4) = riffTag := by
    apply ofBytes_eq_riff
    rw [hrc] at hid
    exact hid
  have h3 : seg s (pos + 8) (pos + 12) = waveTag := by
    apply ofBytes_eq_wave
    rw [hrc] at hft
    exact hft
  have hidB : rc.id.toBytes = seg s pos (pos + 4) := by
    rw [hid, h1]
    rfl
  have hftB : rc.file_type.toBytes = seg s (pos + 8) (pos + 12) := by
    rw [hft, h3]
    rfl
  have hfsB : ser32 rc.file_size = seg s (pos + 4) (pos + 8) := by
    have hfs : rc.file_size = leVal (seg s (pos + 4) (pos + 8)) := by rw [hrc]
    rw [hfs]
    have e : pos + 8 = pos + 4 + 4 := by omega
    rw [e]
    exact ser32_seg hv (by omega)
  unfold serRiffChunk
  rw [hidB, hfsB, hftB]
  rw [seg_append (s := s) (a := pos) (b := pos + 4) (c := pos + 8)
      (by omega) (by omega)]
  rw [seg_append (s := s) (a := pos) (b := pos + 8) (c := pos + 12)
      (by omega) (by omega)]

lemma read_extended_info_none {size pos p : Nat} {s : List Nat}
    (h : read_extended_info size s pos = .ok (none, p)) : size = 0 ∧ p = pos := by
  unfold read_extended_info at h
  split_ifs at h with h0 h22
  · simp only [Except.ok.injEq, Prod.mk.injEq] at h
    exact ⟨h0, h.2.symm⟩
  · split at h
    · exact Except.noConfusion h
    rename_i si q1 heq1
    split at h
    · exact Except.noConfusion h
    rename_i cm q2 heq2
    split at h
    · exact Except.noConfusion h
    rename_i sf q3 heq3
    split at h
    · exact Except.noConfusion h
    rename_i rd q4 heq4
    simp only [Except.ok.injEq, Prod.mk.injEq] at h
    exact absurd h.1 (by simp)

lemma read_extended_info_some {size pos p : Nat} {s : List Nat} {e : ExtendedInfo}
    (h : read_extended_info size s pos = .ok (some e, p)) :
    22 ≤ size ∧ p = pos + size ∧ pos + size ≤ s.length ∧
    e = ⟨leVal (seg s pos (pos + 2)), leVal (seg s (pos + 2) (pos + 6)),
         leVal (seg s (pos + 6) (pos + 22)), seg s (pos + 22) (pos + size)⟩ := by
  unfold read_extended_info at h
  split_ifs at h with h0 h22
  · simp only [Except.ok.injEq, Prod.mk.injEq] at h
    exact absurd h.1 (by simp)
  · split at h
    · exact Except.noConfusion h
    rename_i si q1 heq1
    split at h
    · exact Except.noConfusion h
    rename_i cm q2 heq2
    split at h
    · exact Except.noConfusion h
    rename_i sf q3 heq3
    split at h
    · exact Except.noConfusion h
    rename_i rd q4 heq4
    obtain ⟨hsi, hq1, hl1⟩ := read_u16_ok heq1
    subst hq1
    obtain ⟨hcm, hq2, hl2⟩ := read_u32_ok heq2
    subst hq2
    obtain ⟨hsf, hq3, hl3⟩ := read_u128_ok heq3
    subst hq3
    obtain ⟨hrd, hq4, hl4⟩ := readExact_ok heq4
    subst hq4
    simp only [Except.ok.injEq, Prod.mk.injEq, Option.some.injEq] at h
    obtain ⟨he, hp⟩ := h
    have e6 : pos + 2 + 4 = pos + 6 := by omega
    have e22 : pos + 2 + 4 + 16 = pos + 22 := by omega
    have esz : pos + 2 + 4 + 16 + (size - 22) = pos + size := by omega
    refine ⟨by omega, by omega, by omega, ?_⟩
    rw [← he]
    rw [hsi, hcm, hsf, hrd, e6, e22, esz]

/-- On success, extended info re-serializes to exactly the `size` bytes
it was decoded from. -/
lemma serExtended_of_ok {size pos p : Nat} {s : List Nat} {e : ExtendedInfo}
    (h : read_extended_info size s pos = .ok (some e, p)) (hv : validBytes s) :
    p = pos + size ∧ pos + size ≤ s.length ∧ serExtendedInfo e = seg s pos p := by
  obtain ⟨h22, hp, hl, he⟩ := read_extended_info_some h
  subst hp
  refine ⟨rfl, hl, ?_⟩
  rw [he]
  unfold serExtendedInfo
  simp only
  have hA : ser16 (leVal (seg s pos (pos + 2))) = seg s pos (pos + 2) :=
    ser16_seg hv (by omega)
  have hB : ser32 (leVal (seg s (pos + 2) (pos + 6))) = seg s (pos + 2) (pos + 6) := by
    have e1 : pos + 6 = pos + 2 + 4 := by omega
    rw [e1]
    exact ser32_seg hv (by omega)
  have hC : ser128 (leVal (seg s (pos + 6) (pos + 22))) = seg s (pos + 6) (pos + 22) := by
    have e1 : pos + 22 = pos + 6 + 16 := by omega
    rw [e1]
    exact ser128_seg hv (by omega)
  rw [hA, hB, hC]
  rw [seg_append (s := s) (a := pos) (b := pos + 2) (c := pos + 6)
      (by omega) (by omega)]
  rw [seg_append (s := s) (a := pos) (b := pos + 6) (c := pos + 22)
      (by omega) (by omega)]
  rw [seg_append (s := s) (a := pos) (b := pos + 22) (c := pos + size)
      (by omega) (by omega)]

/-- A peeked non-`fact` tag makes the fact decoder rewind and report
absence. -/
lemma read_fact_chunk_of_ne_fact {pos : Nat} {s : List Nat} {c : FourCC}
    (h : read_fourcc s pos = .ok (c, pos + 4)) (hc : c ≠ .Fact) :
    read_fact_chunk s pos = .ok (none, pos) := by
  unfold read_fact_chunk
  rw [h]
  simp [hc]

lemma read_fact_chunk_none_inv {pos p : Nat} {s : List Nat}
    (h : read_fact_chunk s pos = .ok (none, p)) : p = pos ∧ pos + 4 ≤ s.length := by
  unfold read_fact_chunk at h
  split at h
  · exact Except.noConfusion h
  rename_i id p1 heq1
  obtain ⟨hid, hq1, hl1⟩ := read_fourcc_ok heq1
  subst hq1
  split at h
  · simp only [Except.ok.injEq, Prod.mk.injEq] at h
    exact ⟨by omega, hl1⟩
  · split at h
    · exact Except.noConfusion h
    rename_i ds q2 heq2
    split at h
    · exact Except.noConfusion h
    rename_i sl q3 heq3
    split at h
    · exact Except.noConfusion h
    rename_i rd q4 heq4
    simp only [Except.ok.injEq, Prod.mk.injEq] at h
    exact absurd h.1 (by simp)

lemma read_fact_chunk_some_inv {pos p : Nat} {s : List Nat} {fc : FactChunk}
    (h : read_fact_chunk s pos = .ok (some fc, p)) :
    seg s pos (pos + 4) = factTag ∧
    fc = ⟨.Fact, leVal (seg s (pos + 4) (pos + 8)), leVal (seg s (pos + 8) (pos + 12)),
          seg s (pos + 12) p⟩ ∧
    p = pos + 12 + u32_wrapping_sub fc.data_size 4 ∧
    pos ≤ p ∧ p ≤ s.length := by
  unfold read_fact_chunk at h
  split at h
  · exact Except.noConfusion h
  rename_i id p1 heq1
  obtain ⟨hid, hq1, hl1⟩ := read_fourcc_ok heq1
  subst hq1
  split at h
  · simp only [Except.ok.injEq, Prod.mk.injEq] at h
    exact absurd h.1 (by simp)
  · rename_i hnot
    have hfact : id = FourCC.Fact := by
      by_contra hne
      exact hnot (by simp [hne])
    split at h
    · exact Except.noConfusion h
    rename_i ds q2 heq2
    obtain ⟨hds, hq2, hl2⟩ := read_u32_ok heq2
    subst hq2
    split at h
    · exact Except.noConfusion h
    rename_i sl q3 heq3
    obtain ⟨hsl, hq3, hl3⟩ := read_u32_ok heq3
    subst hq3
    split at h
    · exact Except.noConfusion h
    rename_i rd q4 heq4
    obtain ⟨hrd, hq4, hl4⟩ := readExact_ok heq4
    subst hq4
    simp only [Except.ok.injEq, Prod.mk.injEq, Option.some.injEq] at h
    obtain ⟨hfc, hp⟩ := h
    have e8 : pos + 4 + 4 = pos + 8 := by omega
    have e12 : pos + 4 + 4 + 4 = pos + 12 := by omega
    rw [e8] at hds
    rw [e8, e12] at hsl
    rw [e12] at hrd hl4 hp
    have hseg : seg s pos (pos + 4) = factTag := by
      apply ofBytes_eq_fact
      rw [← hid, hfact]
    refine ⟨hseg, ?_, ?_, by omega, by omega⟩
    · rw [← hfc, hfact, hds, hsl, hrd, ← hp]
    · have hds2 : fc.data_size = ds := by rw [← hfc]
      rw [hds2]
      omega

/-- On success, the fact chunk (or its absence) re-serializes to exactly
the bytes it was decoded from. -/
lemma serFact_of_ok {pos p : Nat} {s : List Nat} {ofc : Option FactChunk}
    (h : read_fact_chunk s pos = .ok (ofc, p)) (hv : validBytes s) :
    pos ≤ p ∧ p ≤ s.length ∧ serFactChunk ofc = seg s pos p := by
  cases ofc with
  | none =>
    obtain ⟨hp, hl⟩ := read_fact_chunk_none_inv h
    subst hp
    exact ⟨le_refl _, by omega, by rw [seg_self]; simp [serFactChunk]⟩
  | some fc =>
    obtain ⟨hseg, hfc, hp, hle, hl⟩ := read_fact_chunk_some_inv h
    refine ⟨hle, hl, ?_⟩
    simp only [serFactChunk]
    have hid : fc.id.toBytes = seg s pos (pos + 4) := by
      rw [hfc, hseg]
      rfl
    have hds : ser32 fc.data_size = seg s (pos + 4) (pos + 8) := by
      have : fc.data_size = leVal (seg s (pos + 4) (pos + 8)) := by rw [hfc]
      rw [this]
      have e : pos + 8 = pos + 4 + 4 := by omega
      rw [e]
      exact ser32_seg hv (by omega)
    have hsl : ser32 fc.sample_length = seg s (pos + 8) (pos + 12) := by
      have : fc.sample_length = leVal (seg s (pos + 8) (pos + 12)) := by rw [hfc]
      rw [this]
      have e : pos + 12 = pos + 8 + 4 := by omega
      rw [e]
      exact ser32_seg hv (by omega)
    have hrd : fc.remaining_data = seg s (pos + 12) p := by rw [hfc]
    have h12 : pos + 12 ≤ p := by
      rw [hfc] at hp
      simp only at hp
      omega
    rw [hid, hds, hsl, hrd]
    rw [seg_append (s := s) (a := pos) (b := pos + 4) (c := pos + 8)
        (by omega) (by omega)]
    rw [seg_append (s := s) (a := pos) (b := pos + 8) (c := pos + 12)
        (by omega) (by omega)]
    rw [seg_append (s := s) (a := pos) (b := pos + 12) (c := p)
        (by omega) (by omega)]

lemma read_data_chunk_ok {pos p : Nat} {s : List Nat} {dc : DataChunk}
    (h : read_data_chunk s pos = .ok (dc, p)) :
    dc = ⟨FourCC.ofBytes (seg s pos (pos + 4)), leVal (seg s (pos + 4) (pos + 8)),
          if leVal (seg s (pos + 4) (pos + 8)) % 2 = 0 then 0 else 1⟩ ∧
    p = pos + 8 ∧ pos + 8 ≤ s.length := by
  unfold read_data_chunk at h
  split at h
  · exact Except.noConfusion h
  rename_i id p1 heq1
  obtain ⟨hid, hq1, hl1⟩ := read_fourcc_ok heq1
  subst hq1
  split at h
  · exact Except.noConfusion h
  rename_i ds q2 heq2
  obtain ⟨hds, hq2, hl2⟩ := read_u32_ok heq2
  subst hq2
  simp only [Except.ok.injEq, Prod.mk.injEq] at h
  obtain ⟨hdc, hp⟩ := h
  have e8 : pos + 4 + 4 = pos + 8 := by omega
  rw [e8] at hds hl2 hp
  exact ⟨by rw [← hdc, hid, hds], by omega, hl2⟩

/-- On success (and a lowercase `data` spelling in the stream), the data
chunk header re-serializes to exactly its eight bytes. -/
lemma serData_of_ok {pos p : Nat} {s : List Nat} {dc : DataChunk}
    (h : read_data_chunk s pos = .ok (dc, p)) (hv : validBytes s)
    (hcap : seg s pos (pos + 4) ≠ dataCapTag) :
    p = pos + 8 ∧ pos + 8 ≤ s.length ∧ serDataChunk dc = seg s pos p := by
  obtain ⟨hdc, hp, hl⟩ := read_data_chunk_ok h
  subst hp
  refine ⟨rfl, hl, ?_⟩
  unfold serDataChunk
  have hid : dc.id.toBytes = seg s pos (pos + 4) := by
    rw [hdc]
    exact toBytes_ofBytes hcap
  have hds : ser32 dc.data_size = seg s (pos + 4) (pos + 8) := by
    have : dc.data_size = leVal (seg s (pos + 4) (pos + 8)) := by rw [hdc]
    rw [this]
    have e : pos + 8 = pos + 4 + 4 := by omega
    rw [e]
    exact ser32_seg hv (by omega)
  rw [hid, hds]
  rw [seg_append (s := s) (a := pos) (b := pos + 4) (c := pos + 8)
      (by omega) (by omega)]

/-- Full inversion of a successful fmt decode: the fixed 16-byte body is
always read from fixed offsets, and the tail is decided by the peek at
`pos + 24`. -/
lemma read_fmt_chunk_inv {pos p : Nat} {s : List Nat} {fc : FmtChunk}
    (h : read_fmt_chunk s pos = .ok (fc, p)) :
    seg s pos (pos + 4) = fmtTag ∧
    fc.id = .Fmt ∧
    fc.data_size = leVal (seg s (pos + 4) (pos + 8)) ∧
    fc.format = Format.ofCode (leVal (seg s (pos + 8) (pos + 10))) ∧
    fc.num_channels = leVal (seg s (pos + 10) (pos + 12)) ∧
    fc.sample_rate = leVal (seg s (pos + 12) (pos + 16)) ∧
    fc.byte_rate = leVal (seg s (pos + 16) (pos + 20)) ∧
    fc.block_align = leVal (seg s (pos + 20) (pos + 22)) ∧
    fc.bits_per_sample = leVal (seg s (pos + 22) (pos + 24)) ∧
    pos + 24 ≤ p ∧ p ≤ s.length ∧
    ((read_is_fourcc s (pos + 24) = .ok (true, pos + 24) ∧ fc.extra_info_size = 0 ∧
      fc.extended_info = none ∧ p = pos + 24) ∨
     (read_is_fourcc s (pos + 24) = .ok (false, pos + 24) ∧
      fc.extra_info_size = leVal (seg s (pos + 24) (pos + 26)) ∧
      read_extended_info fc.extra_info_size s (pos + 26) = .ok (fc.extended_info, p))) := by
  unfold read_fmt_chunk at h
  split at h
  · exact Except.noConfusion h
  rename_i id p1 heq1
  obtain ⟨hid, hq1, hl1⟩ := read_fourcc_ok heq1
  subst hq1
  split at h
  · exact Except.noConfusion h
  rename_i hfmt0
  have hfmt : id = FourCC.Fmt := by
    by_contra hne
    exact hfmt0 (by simp [hne])
  have hseg : seg s pos (pos + 4) = fmtTag := by
    apply ofBytes_eq_fmt
    rw [← hid, hfmt]
  split at h
  · exact Except.noConfusion h
  rename_i ds q2 heq2
  obtain ⟨hds, hq2, hl2⟩ := read_u32_ok heq2
  subst hq2
  split at h
  · exact Except.noConfusion h
  rename_i fcode q3 heq3
  obtain ⟨hfco, hq3, hl3⟩ := read_u16_ok heq3
  subst hq3
  split at h
  · exact Except.noConfusion h
  rename_i nch q4 heq4
  obtain ⟨hnch, hq4, hl4⟩ := read_u16_ok heq4
  subst hq4
  split at h
  · exact Except.noConfusion h
  rename_i sr q5 heq5
  obtain ⟨hsr, hq5, hl5⟩ := read_u32_ok heq5
  subst hq5
  split at h
  · exact Except.noConfusion h
  rename_i br q6 heq6
  obtain ⟨hbr, hq6, hl6⟩ := read_u32_ok heq6
  subst hq6
  split at h
  · exact Except.noConfusion h
  rename_i ba q7 heq7
  obtain ⟨hba, hq7, hl7⟩ := read_u16_ok heq7
  subst hq7
  split at h
  · exact Except.noConfusion h
  rename_i bps q8 heq8
  obtain ⟨hbps, hq8, hl8⟩ := read_u16_ok heq8
  subst hq8
  have e8 : pos + 4 + 4 = pos + 8 := by omega
  have e10 : pos + 4 + 4 + 2 = pos + 10 := by omega
  have e12 : pos + 4 + 4 + 2 + 2 = pos + 12 := by omega
  have e16 : pos + 4 + 4 + 2 + 2 + 4 = pos + 16 := by omega
  have e20 : pos + 4 + 4 + 2 + 2 + 4 + 4 = pos + 20 := by omega
  have e22 : pos + 4 + 4 + 2 + 2 + 4 + 4 + 2 = pos + 22 := by omega
  have e24 : pos + 4 + 4 + 2 + 2 + 4 + 4 + 2 + 2 = pos + 24 := by omega
  rw [e8] at hds
  rw [e8, e10] at hfco
  rw [e10, e12] at hnch
  rw [e12, e16] at hsr
  rw [e16, e20] at hbr
  rw [e20, e22] at hba
  rw [e22, e24] at hbps
  rw [e24] at h
  split at h
  · exact Except.noConfusion h
  rename_i b q9 heq9
  obtain ⟨hq9, hl9, hb⟩ := read_is_fourcc_ok heq9
  subst hq9
  split at h
  · rename_i hbt
    subst hbt
    simp only [Except.ok.injEq, Prod.mk.injEq] at h
    obtain ⟨hfc, hp⟩ := h
    subst hp
    refine ⟨hseg, ?_, ?_, ?_, ?_, ?_, ?_, ?_, ?_, le_refl _, by omega, ?_⟩
    · rw [← hfc, hfmt]
    · rw [← hfc]; exact hds
    · rw [← hfc]; exact congrArg Format.ofCode hfco
    · rw [← hfc]; exact hnch
    · rw [← hfc]; exact hsr
    · rw [← hfc]; exact hbr
    · rw [← hfc]; exact hba
    · rw [← hfc]; exact hbps
    · left
      exact ⟨heq9, by rw [← hfc], by rw [← hfc], rfl⟩
  · rename_i hbf
    have hbfalse : b = false := by
      cases b
      · rfl
      · exact absurd rfl hbf
    subst hbfalse
    split at h
    · exact Except.noConfusion h
    rename_i eis q10 heq10
    obtain ⟨heis, hq10, hl10⟩ := read_u16_ok heq10
    subst hq10
    have e26 : pos + 24 + 2 = pos + 26 := by omega
    rw [e26] at heis
    rw [e26] at h
    split at h
    · exact Except.noConfusion h
    rename_i oe q11 heq11
    simp only [Except.ok.injEq, Prod.mk.injEq] at h
    obtain ⟨hfc, hp⟩ := h
    subst hp
    have hbound : pos + 26 ≤ q11 ∧ q11 ≤ s.length := by
      cases oe with
      | none =>
        obtain ⟨hsz, hq⟩ := read_extended_info_none heq11
        subst hq
        exact ⟨le_refl _, by rw [← e26]; exact hl10⟩
      | some e =>
        obtain ⟨h22, hq, hlen, _⟩ := read_extended_info_some heq11
        subst hq
        exact ⟨by omega, hlen⟩
    refine ⟨hseg, ?_, ?_, ?_, ?_, ?_, ?_, ?_, ?_, by omega, hbound.2, ?_⟩
    · rw [← hfc, hfmt]
    · rw [← hfc]; exact hds
    · rw [← hfc]; exact congrArg Format.ofCode hfco
    · rw [← hfc]; exact hnch
    · rw [← hfc]; exact hsr
    · rw [← hfc]; exact hbr
    · rw [← hfc]; exact hba
    · rw [← hfc]; exact hbps
    · right
      refine ⟨heq9, ?_, ?_⟩
      · rw [← hfc]; exact heis
      · have : fc.extra_info_size = eis := by rw [← hfc]
        rw [this]
        have : fc.extended_info = oe := by rw [← hfc]
        rw [this]
        exact heq11

/-- On success, the fmt chunk re-serializes to exactly the bytes it was
decoded from, provided that when extended info is absent the peek at
`pos + 24` saw a recognizable tag (otherwise the stream carried an
explicit zero extra-info-size field the document cannot reflect). -/
lemma serFmt_of_ok {pos p : Nat} {s : List Nat} {fc : FmtChunk}
    (h : read_fmt_chunk s pos = .ok (fc, p)) (hv : validBytes s)
    (hbr : fc.extended_info = none → read_is_fourcc s (pos + 24) = .ok (true, pos + 24)) :
    pos ≤ p ∧ p ≤ s.length ∧ serFmtChunk fc = seg s pos p := by
  obtain ⟨hseg, hid, hds, hfo, hnc, hsr, hbrate, hba, hbps, hle, hlen, htail⟩ :=
    read_fmt_chunk_inv h
  refine ⟨by omega, hlen, ?_⟩
  have hlen24 : pos + 24 ≤ s.length := by omega
  have hA : fc.id.toBytes = seg s pos (pos + 4) := by
    rw [hid, hseg]
    rfl
  have hB : ser32 fc.data_size = seg s (pos + 4) (pos + 8) := by
    rw [hds]
    have e : pos + 8 = pos + 4 + 4 := by omega
    rw [e]
    exact ser32_seg hv (by omega)
  have hC : ser16 fc.format.toCode = seg s (pos + 8) (pos + 10) := by
    rw [hfo, format_code_roundtrip]
    have e : pos + 10 = pos + 8 + 2 := by omega
    rw [e]
    exact ser16_seg hv (by omega)
  have hD : ser16 fc.num_channels = seg s (pos + 10) (pos + 12) := by
    rw [hnc]
    have e : pos + 12 = pos + 10 + 2 := by omega
    rw [e]
    exact ser16_seg hv (by omega)
  have hE : ser32 fc.sample_rate = seg s (pos + 12) (pos + 16) := by
    rw [hsr]
    have e : pos + 16 = pos + 12 + 4 := by omega
    rw [e]
    exact ser32_seg hv (by omega)
  have hF : ser32 fc.byte_rate = seg s (pos + 16) (pos + 20) := by
    rw [hbrate]
    have e : pos + 20 = pos + 16 + 4 := by omega
    rw [e]
    exact ser32_seg hv (by omega)
  have hG : ser16 fc.block_align = seg s (pos + 20) (pos + 22) := by
    rw [hba]
    have e : pos + 22 = pos + 20 + 2 := by omega
    rw [e]
    exact ser16_seg hv (by omega)
  have hH : ser16 fc.bits_per_sample = seg s (pos + 22) (pos + 24) := by
    rw [hbps]
    have e : pos + 24 = pos + 22 + 2 := by omega
    rw [e]
    exact ser16_seg hv (by omega)
  have hT : (match fc.extended_info with
      | none => ([] : List Nat)
      | some e => ser16 fc.extra_info_size ++ serExtendedInfo e) = seg s (pos + 24) p := by
    rcases htail with ⟨hpeek, hsz, hnone, hp⟩ | ⟨hpeek, heis, hext⟩
    · rw [hnone, hp, seg_self]
    · cases hoe : fc.extended_info with
      | none =>
        have := hbr hoe
        rw [hpeek] at this
        simp at this
      | some e =>
        rw [hoe] at hext
        obtain ⟨hp, hlenE, hserE⟩ := serExtended_of_ok hext hv
        have h26 : ser16 fc.extra_info_size = seg s (pos + 24) (pos + 26) := by
          rw [heis]
          have eq : pos + 26 = pos + 24 + 2 := by omega
          rw [eq]
          exact ser16_seg hv (by omega)
        have h26p : pos + 26 ≤ p := by
          obtain ⟨h22, hq, _, _⟩ := read_extended_info_some hext
          omega
        show ser16 fc.extra_info_size ++ serExtendedInfo e = seg s (pos + 24) p
        rw [h26, hserE]
        exact seg_append (by omega) (by omega)
  unfold serFmtChunk
  rw [hA, hB, hC, hD, hE, hF, hG, hH, hT]
  rw [seg_append (s := s) (a := pos) (b := pos + 4) (c := pos + 8) (by omega) (by omega)]
  rw [seg_append (s := s) (a := pos) (b := pos + 8) (c := pos + 10) (by omega) (by omega)]
  rw [seg_append (s := s) (a := pos) (b := pos + 10) (c := pos + 12) (by omega) (by omega)]
  rw [seg_append (s := s) (a := pos) (b := pos + 12) (c := pos + 16) (by omega) (by omega)]
  rw [seg_append (s := s) (a := pos) (b := pos + 16) (c := pos + 20) (by omega) (by omega)]
  rw [seg_append (s := s) (a := pos) (b := pos + 20) (c := pos + 22) (by omega) (by omega)]
  rw [seg_append (s := s) (a := pos) (b := pos + 22) (c := pos + 24) (by omega) (by omega)]
  rw [seg_append (s := s) (a := pos) (b := pos + 24) (c := p) (by omega) (by omega)]

/-! ## The other-chunks loop -/

/-- The fuel parameter of `read_other_chunks_fuel` is irrelevant once it
exceeds the number of bytes left: every loop iteration consumes at least
eight bytes. -/
lemma read_other_chunks_fuel_irrel : ∀ f1 f2 s pos, s.length < pos + f1 →
    s.length < pos + f2 →
    read_other_chunks_fuel f1 s pos = read_other_chunks_fuel f2 s pos := by
  intro f1
  induction f1 with
  | zero =>
    intro f2 s pos h1 h2
    cases f2 with
    | zero => rfl
    | succ g =>
      have hno : ¬ (pos + 4 ≤ s.length) := by omega
      simp [read_other_chunks_fuel, read_fourcc, readExact, hno]
  | succ g ih =>
    intro f2 s pos h1 h2
    cases f2 with
    | zero =>
      have hno : ¬ (pos + 4 ≤ s.length) := by omega
      simp [read_other_chunks_fuel, read_fourcc, readExact, hno]
    | succ g2 =>
      simp only [read_other_chunks_fuel]
      cases hA : read_fourcc s pos with
      | error e => rfl
      | ok v =>
        obtain ⟨c, p1⟩ := v
        obtain ⟨hc, hp1, hl1⟩ := read_fourcc_ok hA
        subst hp1
        simp only [hA]
        by_cases hd : c = FourCC.Data
        · simp [hd]
        · rw [if_neg hd, if_neg hd]
          cases hB : read_u32 s (pos + 4) with
          | error e => rfl
          | ok w =>
            obtain ⟨n, p2⟩ := w
            obtain ⟨hn, hp2, hl2⟩ := read_u32_ok hB
            subst hp2
            simp only
            cases hC : readExact n s (pos + 4 + 4) with
            | error e => rfl
            | ok u =>
              obtain ⟨bs, p3⟩ := u
              obtain ⟨hbs, hp3, hl3⟩ := readExact_ok hC
              subst hp3
              simp only
              rw [ih g2 s (pos + 4 + 4 + n) (by omega) (by omega)]

/-- On success, the collected other chunks re-serialize to exactly the
bytes the loop consumed. -/
lemma serOthers_fuel_of_ok : ∀ f : Nat, ∀ {s : List Nat} {pos : Nat}
    {cs : List OtherChunk} {p : Nat},
    read_other_chunks_fuel f s pos = .ok (cs, p) → validBytes s →
    pos ≤ p ∧ p ≤ s.length ∧ serOtherChunks cs = seg s pos p := by
  intro f
  induction f with
  | zero =>
    intro s pos cs p h hv
    exact Except.noConfusion h
  | succ g ih =>
    intro s pos cs p h hv
    simp only [read_other_chunks_fuel] at h
    split at h
    · exact Except.noConfusion h
    rename_i c p1 heq1
    obtain ⟨hc, hp1, hl1⟩ := read_fourcc_ok heq1
    subst hp1
    split at h
    · rename_i hd
      simp only [Except.ok.injEq, Prod.mk.injEq] at h
      obtain ⟨hcs, hp⟩ := h
      have hp2 : p = pos := by omega
      subst hp2
      rw [← hcs, seg_self]
      exact ⟨le_refl _, by omega, rfl⟩
    · rename_i hd
      split at h
      · exact Except.noConfusion h
      rename_i n q2 heq2
      obtain ⟨hn, hq2, hl2⟩ := read_u32_ok heq2
      subst hq2
      split at h
      · exact Except.noConfusion h
      rename_i bs q3 heq3
      obtain ⟨hbs, hq3, hl3⟩ := readExact_ok heq3
      subst hq3
      split at h
      · exact Except.noConfusion h
      rename_i rest q4 heq4
      obtain ⟨hr1, hr2, hr3⟩ := ih heq4 hv
      simp only [Except.ok.injEq, Prod.mk.injEq] at h
      obtain ⟨hcs, hp⟩ := h
      subst hp
      refine ⟨by omega, hr2, ?_⟩
      rw [← hcs]
      have hstep : serOtherChunks (⟨c, n, bs⟩ :: rest) =
          serOtherChunk ⟨c, n, bs⟩ ++ serOtherChunks rest := rfl
      rw [hstep]
      have e8 : pos + 4 + 4 = pos + 8 := by omega
      rw [e8] at hbs hl2 heq3 hr1 hr3
      have hA : (FourCC.toBytes c) = seg s pos (pos + 4) := by
        have hcap : seg s pos (pos + 4) ≠ dataCapTag := by
          apply ofBytes_ne_dataCap
          rw [← hc]
          exact hd
        rw [hc]
        exact toBytes_ofBytes hcap
      have hB : ser32 n = seg s (pos + 4) (pos + 8) := by
        rw [hn]
        have e : pos + 8 = pos + 4 + 4 := by omega
        rw [e]
        exact ser32_seg hv (by omega)
      have hC : bs = seg s (pos + 8) (pos + 8 + n) := hbs
      unfold serOtherChunk
      simp only
      rw [hA, hB, hC, hr3]
      rw [seg_append (s := s) (a := pos) (b := pos + 4) (c := pos + 8)
          (by omega) (by omega)]
      rw [seg_append (s := s) (a := pos) (b := pos + 8) (c := pos + 8 + n)
          (by omega) (by omega)]
      rw [seg_append (s := s) (a := pos) (b := pos + 8 + n) (c := q4)
          (by omega) (by omega)]

lemma serOthers_of_ok {s : List Nat} {pos : Nat} {cs : List OtherChunk} {p : Nat}
    (h : read_other_chunks s pos = .ok (cs, p)) (hv : validBytes s) :
    pos ≤ p ∧ p ≤ s.length ∧ serOtherChunks cs = seg s pos p :=
  serOthers_fuel_of_ok _ h hv

/-- A peeked `data` tag stops the loop and rewinds the cursor. -/
lemma read_other_chunks_stop {s : List Nat} {pos : Nat} {c : FourCC}
    (h : read_fourcc s pos = .ok (c, pos + 4)) (hd : c = FourCC.Data) :
    read_other_chunks s pos = .ok ([], pos) := by
  obtain ⟨hc, _, hl⟩ := read_fourcc_ok h
  unfold read_other_chunks
  have hf : s.length + 1 - pos = (s.length - pos) + 1 := by omega
  rw [hf]
  simp only [read_other_chunks_fuel]
  simp [h, hd]

/-- A peeked non-`data` tag consumes one whole chunk and loops. -/
lemma read_other_chunks_step {s : List Nat} {pos n p : Nat} {c : FourCC}
    {bs : List Nat} {rest : List OtherChunk}
    (h1 : read_fourcc s pos = .ok (c, pos + 4)) (hd : c ≠ FourCC.Data)
    (h2 : read_u32 s (pos + 4) = .ok (n, pos + 8))
    (h3 : readExact n s (pos + 8) = .ok (bs, pos + 8 + n))
    (h4 : read_other_chunks s (pos + 8 + n) = .ok (rest, p)) :
    read_other_chunks s pos = .ok (⟨c, n, bs⟩ :: rest, p) := by
  obtain ⟨_, _, hl1⟩ := read_fourcc_ok h1
  obtain ⟨_, _, hl3⟩ := readExact_ok h3
  unfold read_other_chunks
  have hf : s.length + 1 - pos = (s.length - pos) + 1 := by omega
  rw [hf]
  simp only [read_other_chunks_fuel]
  simp only [h1]
  rw [if_neg hd]
  simp only [h2, h3]
  have hirr := read_other_chunks_fuel_irrel (s.length - pos)
    (s.length + 1 - (pos + 8 + n)) s (pos + 8 + n) (by omega) (by omega)
  rw [hirr]
  have h4f : read_other_chunks_fuel (s.length + 1 - (pos + 8 + n)) s (pos + 8 + n) =
      .ok (rest, p) := h4
  rw [h4f]

/-! ## Inversion of the document assembler -/

lemma RiffWaveReader.new_inv {s : List Nat} {doc : RiffWaveReader} {p : Nat}
    (h : RiffWaveReader.new s = .ok (doc, p)) :
    ∃ p1 p2 p3 p4,
      read_riff_chunk s 0 = .ok (doc.riff_chunk, p1) ∧
      doc.riff_chunk.id = .Riff ∧ doc.riff_chunk.file_type = .Wave ∧
      read_fmt_chunk s p1 = .ok (doc.fmt_chunk, p2) ∧
      read_fact_chunk s p2 = .ok (doc.fact_chunk, p3) ∧
      read_other_chunks s p3 = .ok (doc.other_chunks, p4) ∧
      read_data_chunk s p4 = .ok (doc.data_chunk, p) := by
  unfold RiffWaveReader.new at h
  split at h
  · exact Except.noConfusion h
  rename_i rc p1 heq1
  split at h
  · exact Except.noConfusion h
  rename_i hnr
  have hr : rc.id = FourCC.Riff := by
    by_contra hne
    exact hnr (by simp [hne])
  split at h
  · exact Except.noConfusion h
  rename_i hnw
  have hw : rc.file_type = FourCC.Wave := by
    by_contra hne
    exact hnw (by simp [hne])
  split at h
  · exact Except.noConfusion h
  rename_i fc p2 heq2
  split at h
  · exact Except.noConfusion h
  rename_i ofc p3 heq3
  split at h
  · exact Except.noConfusion h
  rename_i ocs p4 heq4
  split at h
  · exact Except.noConfusion h
  rename_i dc p5 heq5
  simp only [Except.ok.injEq, Prod.mk.injEq] at h
  obtain ⟨hdoc, hp⟩ := h
  subst hp
  refine ⟨p1, p2, p3, p4, ?_, ?_, ?_, ?_, ?_, ?_, ?_⟩
  · rw [← hdoc]; exact heq1
  · rw [← hdoc]; exact hr
  · rw [← hdoc]; exact hw
  · rw [← hdoc]; exact heq2
  · rw [← hdoc]; exact heq3
  · rw [← hdoc]; exact heq4
  · rw [← hdoc]; exact heq5

/-! ## Forward evaluation of the primitive readers -/

lemma readExact_eval {n pos : Nat} {s : List Nat} (h : pos + n ≤ s.length) :
    readExact n s pos = .ok (seg s pos (pos + n), pos + n) := by
  unfold readExact
  rw [if_pos h]
  simp [seg]

lemma read_fourcc_eval {pos : Nat} {s : List Nat} (h : pos + 4 ≤ s.length) :
    read_fourcc s pos = .ok (FourCC.ofBytes (seg s pos (pos + 4)), pos + 4) := by
  unfold read_fourcc
  rw [readExact_eval h]

lemma read_u16_eval {pos : Nat} {s : List Nat} (h : pos + 2 ≤ s.length) :
    read_u16 s pos = .ok (leVal (seg s pos (pos + 2)), pos + 2) := by
  unfold read_u16
  rw [readExact_eval h]

lemma read_u32_eval {pos : Nat} {s : List Nat} (h : pos + 4 ≤ s.length) :
    read_u32 s pos = .ok (leVal (seg s pos (pos + 4)), pos + 4) := by
  unfold read_u32
  rw [readExact_eval h]

lemma read_u128_eval {pos : Nat} {s : List Nat} (h : pos + 16 ≤ s.length) :
    read_u128 s pos = .ok (leVal (seg s pos (pos + 16)), pos + 16) := by
  unfold read_u128
  rw [readExact_eval h]

lemma read_is_fourcc_eval {pos : Nat} {s : List Nat} (h : pos + 4 ≤ s.length) :
    read_is_fourcc s pos =
      .ok ((match FourCC.ofBytes (seg s pos (pos + 4)) with
            | .Other _ => false | _ => true), pos) := by
  unfold read_is_fourcc
  rw [read_fourcc_eval h]
  simp

/-! ## Claim theorems -/

/-- Claim C1 (code bug): for a stream whose fact chunk declares data
size 3 (< 4), the decoder does not reject with a typed parse error:
the u32 computation `data_size - 4` wraps to 4294967295, the reader then
attempts to read that many bytes and fails with a propagated I/O error
(`Error` has no fact-specific variant at all). -/
theorem c1_fact_size_lt4_gives_io_error :
    leVal (seg streamF3 40 44) = 3 ∧
    u32_wrapping_sub 3 4 = 4294967295 ∧
    read_fact_chunk streamF3 36 = .error .IOError ∧
    RiffWaveReader.new streamF3 = .error .IOError :=
  ⟨rfl, rfl, rfl, rfl⟩

/-- Claim C2 (counterexample): a 4-byte stream whose first four bytes
are not `RIFF` makes decode fail with an I/O error, not `NotRiff`,
because the decoder reads the full 12-byte RIFF header before checking
the tag. -/
theorem c2_counterexample :
    FourCC.ofBytes (List.take 4 [0, 0, 0, 0]) ≠ FourCC.Riff ∧
    RiffWaveReader.new [0, 0, 0, 0] = .error .IOError :=
  ⟨by decide, rfl⟩

/-- Claim C2 (amended): for every stream of at least 12 bytes whose
first four bytes are not `RIFF`, decode fails with `NotRiff`, and the
full 12-byte RIFF header has been read before the failure is produced
(streams shorter than 12 bytes fail with an I/O error instead). -/
theorem c2_notriff_after_full_header (s : List Nat) (hlen : 12 ≤ s.length)
    (htag : s.take 4 ≠ riffTag) :
    RiffWaveReader.new s = .error .NotRiff ∧
    ∃ rc, read_riff_chunk s 0 = .ok (rc, 12) := by
  have hriff : read_riff_chunk s 0 = .ok
      (⟨FourCC.ofBytes (seg s 0 4), leVal (seg s 4 8), FourCC.ofBytes (seg s 8 12)⟩, 12) := by
    unfold read_riff_chunk
    simp only [read_fourcc_eval (show (0 : Nat) + 4 ≤ s.length by omega),
      read_u32_eval (show (4 : Nat) + 4 ≤ s.length by omega),
      read_fourcc_eval (show (8 : Nat) + 4 ≤ s.length by omega)]
  have hne : FourCC.ofBytes (seg s 0 4) ≠ FourCC.Riff := by
    intro hcontra
    apply htag
    have := ofBytes_eq_riff hcontra
    simpa [seg] using this
  refine ⟨?_, ⟨_, hriff⟩⟩
  unfold RiffWaveReader.new
  simp only [hriff]
  have hc : (⟨FourCC.ofBytes (seg s 0 4), leVal (seg s 4 8),
      FourCC.ofBytes (seg s 8 12)⟩ : RiffChunk).id ≠ FourCC.Riff := hne
  rw [if_pos hc]

/-- Witness for the amended C2 theorem at a concrete all-zero stream. -/
theorem c2_notriff_after_full_header_witness :
    RiffWaveReader.new (List.replicate 12 0) = .error .NotRiff ∧
    ∃ rc, read_riff_chunk (List.replicate 12 0) 0 = .ok (rc, 12) :=
  c2_notriff_after_full_header (List.replicate 12 0) (by decide) (by decide)

/-- Claim C4: after a successful decode the cursor sits exactly eight
bytes past the start of the data chunk header, and the payload accessor
returns every byte from there to end of source; its length is the whole
remainder of the source, independent of the declared data size. -/
theorem c4_data_reads_to_eof (s : List Nat) (d : RiffWaveReader) (p : Nat)
    (h : RiffWaveReader.new s = .ok (d, p)) :
    RiffWaveReader.data s p = .ok (seg s p s.length) ∧
    (seg s p s.length).length = s.length - p ∧
    8 ≤ p ∧ read_data_chunk s (p - 8) = .ok (d.data_chunk, p) ∧ p ≤ s.length := by
  obtain ⟨p1, p2, p3, p4, _, _, _, _, _, _, hdat⟩ := RiffWaveReader.new_inv h
  obtain ⟨hdc, hp, hl⟩ := read_data_chunk_ok hdat
  have hdrop : seg s p s.length = s.drop p := by
    unfold seg
    rw [← List.length_drop, List.take_length]
  refine ⟨?_, ?_, by omega, ?_, by omega⟩
  · unfold RiffWaveReader.data
    rw [hdrop]
  · rw [hdrop, List.length_drop]
  · have e : p - 8 = p4 := by omega
    rw [e]
    exact hdat

/-- Witness for C4 on a stream with six payload bytes although the data
chunk declares size 4: all six are returned. -/
theorem c4_data_reads_to_eof_witness :
    RiffWaveReader.data streamD 44 = .ok (seg streamD 44 streamD.length) ∧
    (seg streamD 44 streamD.length).length = streamD.length - 44 ∧
    8 ≤ 44 ∧ read_data_chunk streamD (44 - 8) = .ok (docA.data_chunk, 44) ∧
    44 ≤ streamD.length :=
  c4_data_reads_to_eof streamD docA 44 rfl

/-- Claim C5: extended-info decoding is a three-way case split on the
declared size: 0 is absent, sizes strictly between 0 and 22 are
`InvalidExtendedInfo`, and sizes of at least 22 read the three fixed
fields and then exactly `size - 22` verbatim bytes. -/
theorem c5_extended_info_cases (size : Nat) (s : List Nat) (pos : Nat) :
    (size = 0 → read_extended_info size s pos = .ok (none, pos)) ∧
    (0 < size → size < 22 →
      read_extended_info size s pos = .error .InvalidExtendedInfo) ∧
    (22 ≤ size → pos + size ≤ s.length →
      read_extended_info size s pos =
        .ok (some ⟨leVal (seg s pos (pos + 2)), leVal (seg s (pos + 2) (pos + 6)),
              leVal (seg s (pos + 6) (pos + 22)), seg s (pos + 22) (pos + size)⟩,
             pos + size)) := by
  refine ⟨?_, ?_, ?_⟩
  · intro h0
    unfold read_extended_info
    rw [if_pos h0]
  · intro hpos hlt
    unfold read_extended_info
    rw [if_neg (by omega), if_pos hlt]
  · intro h22 hlen
    unfold read_extended_info
    rw [if_neg (by omega), if_neg (by omega)]
    have h1 : read_u16 s pos = .ok (leVal (seg s pos (pos + 2)), pos + 2) :=
      read_u16_eval (by omega)
    have h2 : read_u32 s (pos + 2) = .ok (leVal (seg s (pos + 2) (pos + 6)), pos + 6) := by
      have := @read_u32_eval (pos + 2) s (by omega)
      have e : pos + 2 + 4 = pos + 6 := by omega
      rw [e] at this
      exact this
    have h3 : read_u128 s (pos + 6) =
        .ok (leVal (seg s (pos + 6) (pos + 22)), pos + 22) := by
      have := @read_u128_eval (pos + 6) s (by omega)
      have e : pos + 6 + 16 = pos + 22 := by omega
      rw [e] at this
      exact this
    have h4 : readExact (size - 22) s (pos + 22) =
        .ok (seg s (pos + 22) (pos + size), pos + size) := by
      have := @readExact_eval (size - 22) (pos + 22) s (by omega)
      have e : pos + 22 + (size - 22) = pos + size := by omega
      rw [e] at this
      exact this
    simp only [h1, h2, h3, h4]

/-- Witness for C5: all three branches at concrete sizes 0, 10 and 30
over a 30-byte stream. -/
theorem c5_extended_info_cases_witness :
    read_extended_info 0 (List.replicate 30 0) 5 = .ok (none, 5) ∧
    read_extended_info 10 (List.replicate 30 0) 0 = .error .InvalidExtendedInfo ∧
    read_extended_info 30 (List.replicate 30 0) 0 =
      .ok (some ⟨leVal (seg (List.replicate 30 0) 0 2),
            leVal (seg (List.replicate 30 0) 2 6),
            leVal (seg (List.replicate 30 0) 6 22),
            seg (List.replicate 30 0) 22 30⟩, 30) :=
  ⟨(c5_extended_info_cases 0 (List.replicate 30 0) 5).1 rfl,
   (c5_extended_info_cases 10 (List.replicate 30 0) 0).2.1 (by decide) (by decide),
   (c5_extended_info_cases 30 (List.replicate 30 0) 0).2.2 (by decide) (by decide)⟩

/-- Claim C6: after the fixed fmt fields the decoder peeks at
`pos + 24`: a recognizable tag means extended info is absent with
recorded extra-info size 0; otherwise a 16-bit size field is read and
ExtendedInfo of that declared size is decoded from `pos + 26`. -/
theorem c6_fmt_peek_decision (s : List Nat) (pos p : Nat) (fc : FmtChunk)
    (h : read_fmt_chunk s pos = .ok (fc, p)) :
    (read_is_fourcc s (pos + 24) = .ok (true, pos + 24) →
      fc.extra_info_size = 0 ∧ fc.extended_info = none ∧ p = pos + 24) ∧
    (read_is_fourcc s (pos + 24) = .ok (false, pos + 24) →
      fc.extra_info_size = leVal (seg s (pos + 24) (pos + 26)) ∧
      read_extended_info fc.extra_info_size s (pos + 26) = .ok (fc.extended_info, p)) := by
  obtain ⟨_, _, _, _, _, _, _, _, _, _, _, htail⟩ := read_fmt_chunk_inv h
  constructor
  · intro htrue
    rcases htail with ⟨hpeek, h1, h2, h3⟩ | ⟨hpeek, _, _⟩
    · exact ⟨h1, h2, h3⟩
    · rw [hpeek] at htrue
      simp at htrue
  · intro hfalse
    rcases htail with ⟨hpeek, _, _, _⟩ | ⟨hpeek, heis, hext⟩
    · rw [hpeek] at hfalse
      simp at hfalse
    · exact ⟨heis, hext⟩

/-- Witness for C6 on the minimal stream, where the peek at offset 36
sees the `data` tag and the recognizable-tag branch applies. -/
theorem c6_fmt_peek_decision_witness :
    docA.fmt_chunk.extra_info_size = 0 ∧ docA.fmt_chunk.extended_info = none ∧
    36 = 12 + 24 :=
  (c6_fmt_peek_decision streamA 12 36 docA.fmt_chunk rfl).1 rfl

/-- Claim C7: the other-chunks scanner stops (rewinding, consuming
nothing) on a peeked `data` tag, and otherwise consumes the tag, a
32-bit size and exactly that many payload bytes into a chunk prepended
to the remaining scan; concretely, a stream with one `LIST` chunk of
size 8 between `fmt`/`fact` and `data` decodes to a document with
exactly that other-chunk, and the data header is decoded from the
correct position. -/
theorem c7_other_chunks_scan :
    (∀ s pos c, read_fourcc s pos = .ok (c, pos + 4) → c = FourCC.Data →
      read_other_chunks s pos = .ok ([], pos)) ∧
    (∀ s pos n p c bs rest, read_fourcc s pos = .ok (c, pos + 4) → c ≠ FourCC.Data →
      read_u32 s (pos + 4) = .ok (n, pos + 8) →
      readExact n s (pos + 8) = .ok (bs, pos + 8 + n) →
      read_other_chunks s (pos + 8 + n) = .ok (rest, p) →
      read_other_chunks s pos = .ok (⟨c, n, bs⟩ :: rest, p)) ∧
    (RiffWaveReader.new streamC = .ok (docC, 72) ∧
      docC.other_chunks = [⟨FourCC.Other [76, 73, 83, 84], 8, [1, 2, 3, 4, 5, 6, 7, 8]⟩] ∧
      read_data_chunk streamC 64 = .ok (docC.data_chunk, 72)) :=
  ⟨fun _ _ _ h hd => read_other_chunks_stop h hd,
   fun _ _ _ _ _ _ _ h1 hd h2 h3 h4 => read_other_chunks_step h1 hd h2 h3 h4,
   rfl, rfl, rfl⟩

/-- Witness for C7: the stop case on the minimal stream and the
consume case on the `LIST` chunk of `streamC`. -/
theorem c7_other_chunks_scan_witness :
    read_other_chunks streamA 36 = .ok ([], 36) ∧
    read_other_chunks streamC 48 =
      .ok ([⟨FourCC.Other [76, 73, 83, 84], 8, [1, 2, 3, 4, 5, 6, 7, 8]⟩], 64) :=
  ⟨c7_other_chunks_scan.1 streamA 36 FourCC.Data rfl rfl,
   c7_other_chunks_scan.2.1 streamC 48 8 64 (FourCC.Other [76, 73, 83, 84])
     [1, 2, 3, 4, 5, 6, 7, 8] [] rfl (by decide) rfl rfl rfl⟩

/-- Claim C8: when the fact decoder peeks a tag other than `fact`, the
cursor is restored to exactly its position before the four peeked bytes
and absence is reported through the success channel, not as an error. -/
theorem c8_fact_absent_is_ok (s : List Nat) (pos : Nat) (c : FourCC)
    (h : read_fourcc s pos = .ok (c, pos + 4)) (hc : c ≠ FourCC.Fact) :
    read_fact_chunk s pos = .ok (none, pos) :=
  read_fact_chunk_of_ne_fact h hc

/-- Witness for C8 on the minimal stream, whose tag at offset 36 is
`data`. -/
theorem c8_fact_absent_is_ok_witness :
    read_fact_chunk streamA 36 = .ok (none, 36) :=
  c8_fact_absent_is_ok streamA 36 FourCC.Data rfl (by decide)

/-- Claim C9: the data-chunk decoder consumes exactly the tag and the
32-bit size (eight bytes, never the payload) and derives the pad byte
from the parity of the declared size. -/
theorem c9_data_chunk_pad_parity (s : List Nat) (pos p : Nat) (dc : DataChunk)
    (h : read_data_chunk s pos = .ok (dc, p)) :
    p = pos + 8 ∧ dc.data_size = leVal (seg s (pos + 4) (pos + 8)) ∧
    dc.pad_byte = (if dc.data_size % 2 = 0 then 0 else 1) ∧
    (dc.data_size % 2 = 1 → dc.pad_byte = 1) ∧
    (dc.data_size % 2 = 0 → dc.pad_byte = 0) := by
  obtain ⟨hdc, hp, hl⟩ := read_data_chunk_ok h
  subst hp
  have hpad : dc.pad_byte = (if dc.data_size % 2 = 0 then 0 else 1) := by rw [hdc]
  refine ⟨rfl, by rw [hdc], hpad, ?_, ?_⟩
  · intro hodd
    rw [hpad, hodd]
    simp
  · intro heven
    rw [hpad, heven]
    simp

/-- Witness for C9: an isolated data header with odd declared size 7
yields pad byte 1. -/
theorem c9_data_chunk_pad_parity_witness :
    8 = 0 + 8 ∧
    (⟨FourCC.Data, 7, 1⟩ : DataChunk).data_size =
      leVal (seg (dataTag ++ [7, 0, 0, 0]) 4 8) ∧
    (⟨FourCC.Data, 7, 1⟩ : DataChunk).pad_byte =
      (if (⟨FourCC.Data, 7, 1⟩ : DataChunk).data_size % 2 = 0 then 0 else 1) ∧
    ((⟨FourCC.Data, 7, 1⟩ : DataChunk).data_size % 2 = 1 →
      (⟨FourCC.Data, 7, 1⟩ : DataChunk).pad_byte = 1) ∧
    ((⟨FourCC.Data, 7, 1⟩ : DataChunk).data_size % 2 = 0 →
      (⟨FourCC.Data, 7, 1⟩ : DataChunk).pad_byte = 0) :=
  c9_data_chunk_pad_parity (dataTag ++ [7, 0, 0, 0]) 0 8 ⟨FourCC.Data, 7, 1⟩ rfl

/-- Claim C3 (counterexample): a stream spelling the data tag `Data`
decodes successfully, but re-serializing its headers produces the
canonical `data` spelling, so the original header bytes are not
reproduced. -/
theorem c3_counterexample :
    validBytes streamB ∧
    RiffWaveReader.new streamB = .ok (docA, 44) ∧
    serHeaders docA ≠ streamB.take 44 :=
  ⟨by decide, rfl, by decide⟩

/-- Claim C3 (amended): for every stream that decodes successfully,
re-serializing the decoded headers reproduces the consumed header bytes
exactly, provided the stream spells its data tag `data` rather than
`Data`, and, when the document records no extended info, the four bytes
after the fmt base body formed a recognizable tag (rather than an
explicit extra-info-size field with value zero). -/
theorem c3_header_roundtrip (s : List Nat) (d : RiffWaveReader) (p : Nat)
    (hv : validBytes s) (h : RiffWaveReader.new s = .ok (d, p))
    (hfmt : d.fmt_chunk.extended_info = none → read_is_fourcc s 36 = .ok (true, 36))
    (hdata : seg s (p - 8) (p - 4) ≠ dataCapTag) :
    serHeaders d = s.take p := by
  obtain ⟨p1, p2, p3, p4, hriff, hr, hw, hfmtc, hfact, hoth, hdat⟩ :=
    RiffWaveReader.new_inv h
  obtain ⟨hp1, hl1, hs1⟩ := serRiff_of_ok hriff hv hr hw
  subst hp1
  obtain ⟨hle2, hl2, hs2⟩ := serFmt_of_ok hfmtc hv (fun hn => hfmt hn)
  obtain ⟨hle3, hl3, hs3⟩ := serFact_of_ok hfact hv
  obtain ⟨hle4, hl4, hs4⟩ := serOthers_of_ok hoth hv
  obtain ⟨hdc, hpdat, hldat⟩ := read_data_chunk_ok hdat
  have hdata2 : seg s p4 (p4 + 4) ≠ dataCapTag := by
    have e1 : p - 8 = p4 := by omega
    have e2 : p - 4 = p4 + 4 := by omega
    rw [e1, e2] at hdata
    exact hdata
  obtain ⟨hp5, hl5, hs5⟩ := serData_of_ok hdat hv hdata2
  unfold serHeaders
  rw [hs1, hs2, hs3, hs4, hs5]
  rw [seg_append (s := s) (a := 0) (b := 0 + 12) (c := p2) (by omega) hle2]
  rw [seg_append (s := s) (a := 0) (b := p2) (c := p3) (by omega) hle3]
  rw [seg_append (s := s) (a := 0) (b := p3) (c := p4) (by omega) hle4]
  rw [seg_append (s := s) (a := 0) (b := p4) (c := p) (by omega) (by omega)]
  unfold seg
  simp

/-- Witness for the amended C3 theorem: the minimal stream round-trips
its 44 header bytes. -/
theorem c3_header_roundtrip_witness : serHeaders docA = streamA.take 44 :=
  c3_header_roundtrip streamA docA 44 (by decide) rfl (fun _ => rfl) (by decide)

/-! ## Overwriting a field of the stream -/

lemma serBytes_length : ∀ n v : Nat, (serBytes n v).length = n
  | 0, _ => rfl
  | n + 1, v => by simp [serBytes, serBytes_length n]

lemma length_setBytes {s bs : List Nat} {p : Nat} (h : p + bs.length ≤ s.length) :
    (setBytes s p bs).length = s.length := by
  unfold setBytes
  rw [List.length_append, List.length_append, List.length_take, List.length_drop]
  omega

lemma seg_eq_drop_take (s : List Nat) (a b : Nat) : seg s a b = (s.take b).drop a := by
  unfold seg
  rw [List.drop_take]

lemma seg_setBytes_before {s bs : List Nat} {p a b : Nat} (hb : b ≤ p)
    (hp : p ≤ s.length) :
    seg (setBytes s p bs) a b = seg s a b := by
  have htake : (setBytes s p bs).take b = s.take b := by
    unfold setBytes
    rw [List.take_append_eq_append_take, List.take_append_eq_append_take, List.take_take]
    have e1 : min b p = b := by omega
    have e2 : b - (List.take p s).length = 0 := by
      rw [List.length_take]
      omega
    have e3 : b - (List.take p s ++ bs).length = 0 := by
      rw [List.length_append, List.length_take]
      omega
    rw [e1, e2, e3]
    simp
  rw [seg_eq_drop_take, seg_eq_drop_take, htake]

lemma seg_setBytes_after {s bs : List Nat} {p a b : Nat} (ha : p + bs.length ≤ a)
    (hp : p ≤ s.length) :
    seg (setBytes s p bs) a b = seg s a b := by
  have hdrop : (setBytes s p bs).drop a = s.drop a := by
    unfold setBytes
    rw [List.drop_append_eq_append_drop]
    have hl1 : (s.take p ++ bs).length = p + bs.length := by
      rw [List.length_append, List.length_take]
      omega
    have h1 : (s.take p ++ bs).drop a = [] := by
      apply List.drop_eq_nil_of_le
      rw [hl1]
      omega
    rw [h1, hl1, List.drop_drop, List.nil_append]
    congr 1
    omega
  unfold seg
  rw [hdrop]

lemma seg_setBytes_at {s bs : List Nat} {p : Nat} (h : p + bs.length ≤ s.length) :
    seg (setBytes s p bs) p (p + bs.length) = bs := by
  unfold seg setBytes
  have hi : p + bs.length - p = bs.length := by omega
  rw [hi]
  have hdrop : ((s.take p ++ bs) ++ s.drop (p + bs.length)).drop p =
      bs ++ s.drop (p + bs.length) := by
    rw [List.drop_append_eq_append_drop, List.drop_append_eq_append_drop]
    have h1 : (s.take p).drop p = [] := by
      apply List.drop_eq_nil_of_le
      rw [List.length_take]
      omega
    have h2 : p - (List.take p s).length = 0 := by
      rw [List.length_take]
      omega
    have h3 : p - (List.take p s ++ bs).length = 0 := by
      rw [List.length_append, List.length_take]
      omega
    rw [h1, h2, h3, List.nil_append, List.drop_zero]
    have h4 : (s.drop (p + bs.length)).drop 0 = s.drop (p + bs.length) := List.drop_zero _
    rw [h4]
  rw [hdrop, List.take_append_eq_append_take]
  simp

/-! ## The readers only look at the segments they read -/

lemma readExact_agree {s t : List Nat} (hlen : t.length = s.length) {n a : Nat}
    (hseg : seg t a (a + n) = seg s a (a + n)) : readExact n t a = readExact n s a := by
  unfold readExact
  rw [hlen]
  split
  · have h1 : (t.drop a).take n = (s.drop a).take n := by
      have := hseg
      simp only [seg, Nat.add_sub_cancel_left] at this
      exact this
    rw [h1]
  · rfl

lemma read_u16_agree {s t : List Nat} (hlen : t.length = s.length) {a : Nat}
    (hseg : seg t a (a + 2) = seg s a (a + 2)) : read_u16 t a = read_u16 s a := by
  unfold read_u16
  rw [readExact_agree hlen hseg]

lemma read_u32_agree {s t : List Nat} (hlen : t.length = s.length) {a : Nat}
    (hseg : seg t a (a + 4) = seg s a (a + 4)) : read_u32 t a = read_u32 s a := by
  unfold read_u32
  rw [readExact_agree hlen hseg]

lemma read_u128_agree {s t : List Nat} (hlen : t.length = s.length) {a : Nat}
    (hseg : seg t a (a + 16) = seg s a (a + 16)) : read_u128 t a = read_u128 s a := by
  unfold read_u128
  rw [readExact_agree hlen hseg]

lemma read_fourcc_agree {s t : List Nat} (hlen : t.length = s.length) {a : Nat}
    (hseg : seg t a (a + 4) = seg s a (a + 4)) : read_fourcc t a = read_fourcc s a := by
  unfold read_fourcc
  rw [readExact_agree hlen hseg]

lemma read_is_fourcc_agree {s t : List Nat} (hlen : t.length = s.length) {a : Nat}
    (hseg : seg t a (a + 4) = seg s a (a + 4)) :
    read_is_fourcc t a = read_is_fourcc s a := by
  unfold read_is_fourcc
  rw [read_fourcc_agree hlen hseg]

/-- Extended-info decoding only looks at the stream from its start
position on. -/
lemma read_extended_info_agree {s t : List Nat} (hlen : t.length = s.length) {k : Nat}
    (hseg : ∀ a b, k ≤ a → seg t a b = seg s a b) (size pos : Nat) (hpos : k ≤ pos) :
    read_extended_info size t pos = read_extended_info size s pos := by
  unfold read_extended_info
  split_ifs
  · rfl
  · rfl
  · rw [read_u16_agree hlen (hseg pos (pos + 2) hpos)]
    cases hA : read_u16 s pos with
    | error e => rfl
    | ok w =>
      obtain ⟨si, p1⟩ := w
      obtain ⟨_, hp1, _⟩ := read_u16_ok hA
      subst hp1
      simp only [hA]
      rw [read_u32_agree hlen (hseg (pos + 2) (pos + 2 + 4) (by omega))]
      cases hB : read_u32 s (pos + 2) with
      | error e => rfl
      | ok w2 =>
        obtain ⟨cm, p2⟩ := w2
        obtain ⟨_, hp2, _⟩ := read_u32_ok hB
        subst hp2
        simp only [hB]
        rw [read_u128_agree hlen (hseg (pos + 2 + 4) (pos + 2 + 4 + 16) (by omega))]
        cases hC : read_u128 s (pos + 2 + 4) with
        | error e => rfl
        | ok w3 =>
          obtain ⟨sf, p3⟩ := w3
          obtain ⟨_, hp3, _⟩ := read_u128_ok hC
          subst hp3
          simp only [hC]
          rw [readExact_agree hlen
            (hseg (pos + 2 + 4 + 16) (pos + 2 + 4 + 16 + (size - 22)) (by omega))]

/-- Claim C10: the fmt decoder always consumes the fixed 16-byte base
body at offsets `pos + 8 .. pos + 24` after the tag and size fields; the
declared data size is stored verbatim in the document and is never used
to bound, skip or extend what is read: overwriting the four size-field
bytes with the encoding of any other 32-bit value leaves the whole
decode unchanged except for the stored `data_size`. -/
theorem c10_fmt_ignores_data_size (s : List Nat) (pos p v : Nat) (fc : FmtChunk)
    (h : read_fmt_chunk s pos = .ok (fc, p)) (hvv : v < 4294967296) :
    read_fmt_chunk (setBytes s (pos + 4) (ser32 v)) pos =
      .ok ({fc with data_size := v}, p) ∧
    fc.data_size = leVal (seg s (pos + 4) (pos + 8)) ∧ pos + 24 ≤ p := by
  obtain ⟨hseg, hid, hds, hfo, hnc, hsr, hbrate, hba, hbps, hle, hlen, htail⟩ :=
    read_fmt_chunk_inv h
  refine ⟨?_, hds, hle⟩
  have hb4 : (ser32 v).length = 4 := serBytes_length 4 v
  have hlen8 : pos + 8 ≤ s.length := by omega
  have hlen2 : (setBytes s (pos + 4) (ser32 v)).length = s.length :=
    length_setBytes (by rw [hb4]; omega)
  have hbefore : ∀ a b, b ≤ pos + 4 →
      seg (setBytes s (pos + 4) (ser32 v)) a b = seg s a b :=
    fun a b hb => seg_setBytes_before hb (by omega)
  have hafter : ∀ a b, pos + 8 ≤ a →
      seg (setBytes s (pos + 4) (ser32 v)) a b = seg s a b := by
    intro a b ha
    apply seg_setBytes_after
    · rw [hb4]
      omega
    · omega
  have hat : seg (setBytes s (pos + 4) (ser32 v)) (pos + 4) (pos + 4 + 4) = ser32 v := by
    have := @seg_setBytes_at s (ser32 v) (pos + 4) (by rw [hb4]; omega)
    rw [hb4] at this
    exact this
  have h1 : read_fourcc (setBytes s (pos + 4) (ser32 v)) pos = .ok (.Fmt, pos + 4) := by
    rw [read_fourcc_eval (by rw [hlen2]; omega)]
    rw [hbefore pos (pos + 4) (by omega), hseg]
    rfl
  have h2 : read_u32 (setBytes s (pos + 4) (ser32 v)) (pos + 4) = .ok (v, pos + 8) := by
    rw [read_u32_eval (by rw [hlen2]; omega)]
    rw [hat]
    have h256 : (256 : Nat) ^ 4 = 4294967296 := by norm_num
    have hlv : leVal (ser32 v) = v := by
      unfold ser32
      rw [leVal_serBytes 4 v (by rw [h256]; exact hvv)]
    rw [hlv]
  have h3 : read_u16 (setBytes s (pos + 4) (ser32 v)) (pos + 8) =
      .ok (leVal (seg s (pos + 8) (pos + 10)), pos + 10) := by
    rw [read_u16_eval (by rw [hlen2]; omega)]
    rw [hafter (pos + 8) (pos + 8 + 2) (by omega)]
  have h4 : read_u16 (setBytes s (pos + 4) (ser32 v)) (pos + 10) =
      .ok (leVal (seg s (pos + 10) (pos + 12)), pos + 12) := by
    rw [read_u16_eval (by rw [hlen2]; omega)]
    rw [hafter (pos + 10) (pos + 10 + 2) (by omega)]
  have h5 : read_u32 (setBytes s (pos + 4) (ser32 v)) (pos + 12) =
      .ok (leVal (seg s (pos + 12) (pos + 16)), pos + 16) := by
    rw [read_u32_eval (by rw [hlen2]; omega)]
    rw [hafter (pos + 12) (pos + 12 + 4) (by omega)]
  have h6 : read_u32 (setBytes s (pos + 4) (ser32 v)) (pos + 16) =
      .ok (leVal (seg s (pos + 16) (pos + 20)), pos + 20) := by
    rw [read_u32_eval (by rw [hlen2]; omega)]
    rw [hafter (pos + 16) (pos + 16 + 4) (by omega)]
  have h7 : read_u16 (setBytes s (pos + 4) (ser32 v)) (pos + 20) =
      .ok (leVal (seg s (pos + 20) (pos + 22)), pos + 22) := by
    rw [read_u16_eval (by rw [hlen2]; omega)]
    rw [hafter (pos + 20) (pos + 20 + 2) (by omega)]
  have h8 : read_u16 (setBytes s (pos + 4) (ser32 v)) (pos + 22) =
      .ok (leVal (seg s (pos + 22) (pos + 24)), pos + 24) := by
    rw [read_u16_eval (by rw [hlen2]; omega)]
    rw [hafter (pos + 22) (pos + 22 + 2) (by omega)]
  have h9 : read_is_fourcc (setBytes s (pos + 4) (ser32 v)) (pos + 24) =
      read_is_fourcc s (pos + 24) :=
    read_is_fourcc_agree hlen2 (hafter (pos + 24) (pos + 24 + 4) (by omega))
  unfold read_fmt_chunk
  simp only [h1]
  rw [if_neg (by simp : ¬ (FourCC.Fmt ≠ FourCC.Fmt))]
  simp only [h2, h3, h4, h5, h6, h7, h8, h9]
  rcases htail with ⟨hpeek, hsz, hnone, hp⟩ | ⟨hpeek, heis, hext⟩
  · simp only [hpeek]
    rw [hp]
    rw [hid, hfo, hnc, hsr, hbrate, hba, hbps, hsz, hnone]
    simp
  · simp only [hpeek]
    have h26len : pos + 26 ≤ s.length := by
      cases hoe : fc.extended_info with
      | none =>
        obtain ⟨_, hq⟩ := read_extended_info_none (by rw [hoe] at hext; exact hext)
        omega
      | some e =>
        obtain ⟨_, hq, hl9, _⟩ := read_extended_info_some (by rw [hoe] at hext; exact hext)
        omega
    have h10 : read_u16 (setBytes s (pos + 4) (ser32 v)) (pos + 24) =
        .ok (fc.extra_info_size, pos + 26) := by
      rw [read_u16_eval (by rw [hlen2]; omega)]
      rw [hafter (pos + 24) (pos + 24 + 2) (by omega)]
      have e26 : pos + 24 + 2 = pos + 26 := by omega
      rw [e26, ← heis]
    simp only [h10]
    have h11 : read_extended_info fc.extra_info_size
        (setBytes s (pos + 4) (ser32 v)) (pos + 26) = .ok (fc.extended_info, p) := by
      rw [read_extended_info_agree (k := pos + 8) hlen2 hafter fc.extra_info_size
        (pos + 26) (by omega)]
      exact hext
    simp only [h11]
    rw [hid, hfo, hnc, hsr, hbrate, hba, hbps]
    simp

/-- Witness for C10: overwriting the fmt size field of the minimal
stream with the encoding of 77 changes only the stored data size. -/
theorem c10_fmt_ignores_data_size_witness :
    read_fmt_chunk (setBytes streamA (12 + 4) (ser32 77)) 12 =
      .ok ({docA.fmt_chunk with data_size := 77}, 36) ∧
    docA.fmt_chunk.data_size = leVal (seg streamA (12 + 4) (12 + 8)) ∧
    12 + 24 ≤ 36 :=
  c10_fmt_ignores_data_size streamA 12 36 77 docA.fmt_chunk rfl (by decide)

end RiffWave
